import Mathlib

/-!
Shallow embedding of the relocation engine of the elf_loader repository
(src/src/relocation.rs) and of the bootstrap program (src/mini-loader/src/main.rs),
together with proofs settling the frozen claims about the specification.

Machine words are modelled as Nat; memory is a map from addresses to words.
The symbol-index component (symbol.rs, not part of the provided sources) is kept
abstract: each image carries the two lookup functions the relocation engine calls
(rel_symbol on the own image, get_sym on each dependency image).
-/

namespace ElfLoader

/-! ## Architecture constants (src/src/arch/riscv64.rs) -/

/-- SHN_UNDEF from the elf abi. -/
def SHN_UNDEF : Nat := 0

/-- STT_GNU_IFUNC from the elf abi: st_info and 0xf equals this for an ifunc symbol. -/
def STT_GNU_IFUNC : Nat := 10

/-- REL_RELATIVE = R_RISCV_RELATIVE. -/
def REL_RELATIVE : Nat := 3

/-- REL_GOT on riscv64 is the sentinel u32::MAX: the arch has no GOT relocation class. -/
def REL_GOT : Nat := 4294967295

/-- REL_SYMBOLIC = R_RISCV_64. -/
def REL_SYMBOLIC : Nat := 2

/-- REL_JUMP_SLOT = R_RISCV_JUMP_SLOT. -/
def REL_JUMP_SLOT : Nat := 5

/-- REL_DTPMOD = R_RISCV_TLS_DTPMOD64. -/
def REL_DTPMOD : Nat := 7

/-- REL_DTPOFF = R_RISCV_TLS_DTPREL64. -/
def REL_DTPOFF : Nat := 9

/-- TLS_DTV_OFFSET on riscv64. -/
def TLS_DTV_OFFSET : Nat := 0x800

/-- usize arithmetic is 64 bit. -/
def WORD_MOD : Nat := 2 ^ 64

/-! ## Data model -/

/-- Memory of the process: every address holds a machine word. -/
abbrev Mem : Type := Nat → Nat

/-- write_val of ElfDylib (src/src/relocation.rs lines 190-196): the word val is
stored at address base + offset. -/
def writeVal (base : Nat) (m : Mem) (off val : Nat) : Mem :=
  fun a => if a = base + off then val else m a

/-- one RELA relocation entry, with the accessor results r_offset, r_type,
r_symbol and r_addend as plain fields. -/
structure ElfRela where
  r_offset : Nat
  r_type : Nat
  r_sym : Nat
  r_addend : Nat
  deriving DecidableEq, Repr, Inhabited

/-- one entry of the ELF dynamic symbol table (the fields the engine reads). -/
structure ElfSymbol where
  st_value : Nat
  st_info : Nat
  st_shndx : Nat
  deriving DecidableEq, Repr, Inhabited

/-- name and optional required version of a symbol, as handed around by the engine. -/
structure SymbolInfo where
  name : String
  version : Option String
  deriving DecidableEq, Repr, Inhabited

/-- a dependency image as the relocation engine sees it: its base, its symbol
lookup (get_sym of symbol.rs, abstract here) and its TLS module id. -/
structure RelocatedDylibM where
  base : Nat
  getSym : SymbolInfo → Option ElfSymbol
  tls : Option Nat

/-- SymDef of src/src/relocation.rs lines 8-14. -/
structure SymDef where
  sym : ElfSymbol
  base : Nat
  tls : Option Nat

/-- the From SymDef conversion of src/src/relocation.rs lines 16-26: an ifunc
symbol is called and its answer used; the ambient function ifunc gives the value
returned by the resolver body found at a given address. -/
def SymDef.into (ifunc : Nat → Nat) (sd : SymDef) : Nat :=
  if sd.sym.st_info % 16 ≠ STT_GNU_IFUNC then sd.base + sd.sym.st_value
  else ifunc (sd.base + sd.sym.st_value)

/-! ## Bitmap and relocation state (src/src/relocation.rs lines 297-456)

The source packs the bits into a Vec of u32 units; the model keeps one Bool per
entry index, initial value true, which preserves the observable bit semantics
(padding bits of the last unit start at 1 and are never cleared, hence never
iterated). -/

/-- BitMap: bit i is true when entry i has not been rejected. -/
abbrev BitMap : Type := List Bool

/-- BitMap::new: all bits start set. -/
def BitMap.new (size : Nat) : BitMap := List.replicate size true

/-- read one bit (bits outside the map read as set, like the padding bits). -/
def BitMap.get (bm : BitMap) (i : Nat) : Bool := bm.getD i true

/-- BitMap::set. -/
def BitMap.set (bm : BitMap) (i : Nat) : BitMap := List.set bm i true

/-- BitMap::clear. -/
def BitMap.clear (bm : BitMap) (i : Nat) : BitMap := List.set bm i false

/-- indices of the cleared bits, in increasing order: exactly the indices the
BitMapIterator of the source yields (the iterator walks a cached copy of each
unit, so clearing or setting the bit currently being processed does not change
the set of yielded indices). -/
def clearedIdx (bm : BitMap) : List Nat :=
  (List.range bm.length).filter (fun i => bm.get i = false)

/-- RelocateStage of the source. -/
inductive RelocateStage where
  | Init
  | Relocating
  | Finish
  deriving DecidableEq, Repr

/-- RelocateState of the source. -/
structure RelocateState where
  relocated : BitMap
  stage : RelocateStage
  deriving DecidableEq, Repr

/-- ElfRelaArray of the source. -/
structure ElfRelaArray where
  array : List ElfRela
  state : RelocateState
  deriving DecidableEq, Repr

/-- ElfRelaArray::is_finished. -/
def ElfRelaArray.isFinished (a : ElfRelaArray) : Bool :=
  a.state.stage = RelocateStage.Finish

/-- ElfRelocation of the source: the PLT array and the dynamic array. -/
structure ElfRelocation where
  pltrel : Option ElfRelaArray
  dynrel : Option ElfRelaArray
  deriving DecidableEq, Repr

/-- ElfRelocation::new: both arrays start with stage Init and an all-set bitmap. -/
def ElfRelocation.new (pltrel dynrel : Option (List ElfRela)) : ElfRelocation :=
  { pltrel := pltrel.map (fun array =>
      { array, state := { relocated := BitMap.new array.length, stage := RelocateStage.Init } })
    dynrel := dynrel.map (fun array =>
      { array, state := { relocated := BitMap.new array.length, stage := RelocateStage.Init } }) }

/-! ## Entry handlers (the closures of relocate_impl) -/

/-- outcome of handling one relocation entry: a write of val at base + off, a
call of deal_fail, or a panic of the process (assert, unwrap, unreachable,
unimplemented). -/
inductive EntryResult where
  | write (off val : Nat)
  | fail
  | panic
  deriving DecidableEq, Repr

/-- the unrelocated image, with the fields the relocation engine and finish
read.  relSymbol is rel_symbol of symbol.rs (abstract); ifunc gives the value an
ifunc resolver body at a given address returns; mem is the mapped memory.
initFn, initArrayLen and relro record presence of the init hook, length of the
init array and presence of a relro range, used by finish. -/
structure ElfDylibM where
  base : Nat
  relSymbol : Nat → ElfSymbol × SymbolInfo
  tlsModId : Option Nat
  lazy : Bool
  relocation : ElfRelocation
  depLibs : List RelocatedDylibM
  mem : Mem
  ifunc : Nat → Nat
  name : String
  initFn : Bool
  initArrayLen : Nat
  relro : Bool

/-- find_symdef of src/src/relocation.rs lines 54-82: an entry whose own symbol
is defined resolves to the owning image, otherwise the dependency images are
scanned in order. -/
def findSymdef (img : ElfDylibM) (libs : List RelocatedDylibM)
    (dynsym : ElfSymbol) (syminfo : SymbolInfo) : Option SymDef :=
  if dynsym.st_shndx ≠ SHN_UNDEF then
    some { sym := dynsym, base := img.base, tls := img.tlsModId }
  else
    libs.findSome? (fun lib =>
      (lib.getSym syminfo).map (fun sym => { sym, base := lib.base, tls := lib.tls }))

/-- the PLT entry closure of relocate_impl (src/src/relocation.rs lines 93-116). -/
def pltEntry (img : ElfDylibM) (libs : List RelocatedDylibM)
    (f : String → Option Nat) (rela : ElfRela) : EntryResult :=
  if rela.r_sym = 0 then EntryResult.panic
  else
    let dynsym := (img.relSymbol rela.r_sym).1
    let syminfo := (img.relSymbol rela.r_sym).2
    match (f syminfo.name).or ((findSymdef img libs dynsym syminfo).map (SymDef.into img.ifunc)) with
    | none => EntryResult.fail
    | some s =>
      if rela.r_type = REL_JUMP_SLOT then EntryResult.write rela.r_offset s
      else EntryResult.panic

/-- the dynamic entry closure of relocate_impl (src/src/relocation.rs lines
121-182).  Note the resolution for REL_GOT and REL_SYMBOLIC: the fallback
resolver f is consulted first and its answer, when some, takes precedence over
find_symdef. -/
def dynEntry (img : ElfDylibM) (libs : List RelocatedDylibM)
    (f : String → Option Nat) (rela : ElfRela) : EntryResult :=
  let name := if rela.r_sym ≠ 0 then (img.relSymbol rela.r_sym).2.name else ""
  let symdef :=
    if rela.r_sym ≠ 0 then
      findSymdef img libs (img.relSymbol rela.r_sym).1 (img.relSymbol rela.r_sym).2
    else none
  if rela.r_type = REL_GOT ∨ rela.r_type = REL_SYMBOLIC then
    match (f name).or (symdef.map (SymDef.into img.ifunc)) with
    | none => EntryResult.fail
    | some s => EntryResult.write rela.r_offset (s + rela.r_addend)
  else if rela.r_type = REL_RELATIVE then
    EntryResult.write rela.r_offset (img.base + rela.r_addend)
  else if rela.r_type = REL_DTPMOD then
    if rela.r_sym ≠ 0 then
      match symdef with
      | none => EntryResult.fail
      | some sd =>
        match sd.tls with
        | none => EntryResult.panic
        | some t => EntryResult.write rela.r_offset t
    else
      match img.tlsModId with
      | none => EntryResult.panic
      | some t => EntryResult.write rela.r_offset t
  else if rela.r_type = REL_DTPOFF then
    match symdef with
    | none => EntryResult.fail
    | some sd =>
      EntryResult.write rela.r_offset
        ((sd.sym.st_value + rela.r_addend + (WORD_MOD - TLS_DTV_OFFSET)) % WORD_MOD)
  else EntryResult.panic

/-! ## The relocation passes (ElfRelaArray::relocate) -/

/-- fold a fallible step over a list, propagating the first none. -/
def optFold {α σ : Type} (g : α → σ → Option σ) (l : List α) (acc : Option σ) : Option σ :=
  l.foldl (fun acc x => acc.bind (g x)) acc

/-- deal_fail of both stages: clear the bit of the failed entry and move the
stage back to Relocating. -/
def dealFail (idx : Nat) (st : RelocateState) : RelocateState :=
  { relocated := st.relocated.clear idx, stage := RelocateStage.Relocating }

/-- apply the handler outcome of the entry at index idx to state and memory. -/
def entryStep (base : Nat) (h : ElfRela → EntryResult) (ie : Nat × ElfRela)
    (sm : RelocateState × Mem) : Option (RelocateState × Mem) :=
  match h ie.2 with
  | EntryResult.write off val => some (sm.1, writeVal base sm.2 off val)
  | EntryResult.fail => some (dealFail ie.1 sm.1, sm.2)
  | EntryResult.panic => none

/-- one step of the Relocating stage pass: the bit of the visited index is set
before the handler runs (which may clear it again through deal_fail). -/
def relocStep (base : Nat) (h : ElfRela → EntryResult) (arr : List ElfRela)
    (idx : Nat) (sm : RelocateState × Mem) : Option (RelocateState × Mem) :=
  entryStep base h (idx, arr.getD idx default)
    ({ sm.1 with relocated := sm.1.relocated.set idx }, sm.2)

/-- ElfRelaArray::relocate (src/src/relocation.rs lines 386-416).  The Init
stage walks the whole array; the Relocating stage walks exactly the bits that
were cleared when the pass started; the Finish stage does nothing.  In both
active stages the stage is set to Finish before the walk and deal_fail resets
it to Relocating.  none models a panic inside a handler. -/
def ElfRelaArray.relocate (a : ElfRelaArray) (base : Nat)
    (h : ElfRela → EntryResult) (m : Mem) : Option (ElfRelaArray × Mem) :=
  match a.state.stage with
  | RelocateStage.Init =>
    match optFold (entryStep base h) a.array.enum
        (some ({ relocated := a.state.relocated, stage := RelocateStage.Finish }, m)) with
    | none => none
    | some (st, m') => some ({ array := a.array, state := st }, m')
  | RelocateStage.Relocating =>
    match optFold (relocStep base h a.array) (clearedIdx a.state.relocated)
        (some ({ relocated := a.state.relocated, stage := RelocateStage.Finish }, m)) with
    | none => none
    | some (st, m') => some ({ array := a.array, state := st }, m')
  | RelocateStage.Finish => some (a, m)

/-! ## relocate_impl, is_finished, finish (src/src/relocation.rs lines 48-294) -/

/-- the PLT half of relocate_impl: skipped entirely when lazy binding is on. -/
def relocatePlt (img : ElfDylibM) (libs : List RelocatedDylibM)
    (f : String → Option Nat) : Option (Option ElfRelaArray × Mem) :=
  if img.lazy then some (img.relocation.pltrel, img.mem)
  else
    match img.relocation.pltrel with
    | none => some (none, img.mem)
    | some arr =>
      match arr.relocate img.base (pltEntry img libs f) img.mem with
      | none => none
      | some (arr', m) => some (some arr', m)

/-- the dynamic half of relocate_impl. -/
def relocateDyn (img : ElfDylibM) (libs : List RelocatedDylibM)
    (f : String → Option Nat) (m : Mem) : Option (Option ElfRelaArray × Mem) :=
  match img.relocation.dynrel with
  | none => some (none, m)
  | some arr =>
    match arr.relocate img.base (dynEntry img libs f) m with
    | none => none
    | some (arr', m') => some (some arr', m')

/-- relocate_impl: process the PLT array (unless lazy), then the dynamic array,
then append the whole dependency slice to dep_libs.  none models a panic. -/
def relocateImpl (img : ElfDylibM) (libs : List RelocatedDylibM)
    (f : String → Option Nat) : Option ElfDylibM :=
  match relocatePlt img libs f with
  | none => none
  | some (plt', m1) =>
    match relocateDyn img libs f m1 with
    | none => none
    | some (dyn', m2) =>
      some { img with
        relocation := { pltrel := plt', dynrel := dyn' }
        mem := m2
        depLibs := img.depLibs ++ libs }

/-- relocate: relocate_impl with the trivial fallback resolver. -/
def relocate (img : ElfDylibM) (libs : List RelocatedDylibM) : Option ElfDylibM :=
  relocateImpl img libs (fun _ => none)

/-- is_finished of ElfDylib (src/src/relocation.rs lines 199-211), translated
with the same overwriting of the local finished flag as the source: the value
taken from the PLT array is clobbered by the one taken from the dynamic array
when both arrays are present. -/
def ElfDylibM.isFinished (img : ElfDylibM) : Bool :=
  let finished := true
  let finished :=
    if !img.lazy then
      match img.relocation.pltrel with
      | some array => array.isFinished
      | none => finished
    else finished
  let finished :=
    match img.relocation.dynrel with
    | some array => array.isFinished
    | none => finished
  finished

/-- Modelled from the spec: the is_finished predicate the specification states
(both arrays that must be processed are in stage Finish; the PLT array counts
only when present and lazy binding is off). -/
def ElfDylibM.isFinishedSpec (img : ElfDylibM) : Bool :=
  (if !img.lazy then
    match img.relocation.pltrel with
    | some array => array.isFinished
    | none => true
  else true) &&
  (match img.relocation.dynrel with
   | some array => array.isFinished
   | none => true)

/-- names listed by not_relocated for one array: the entries whose bit is
cleared and whose r_sym is nonzero, in index order. -/
def unresolvedNamesArr (img : ElfDylibM) (arr : ElfRelaArray) : List String :=
  (clearedIdx arr.state.relocated).filterMap (fun idx =>
    let rela := arr.array.getD idx default
    if rela.r_sym ≠ 0 then some (img.relSymbol rela.r_sym).2.name else none)

/-- names of all still-unresolved entries of both arrays, PLT first. -/
def unresolvedNames (img : ElfDylibM) : List String :=
  (match img.relocation.pltrel with
   | some a => unresolvedNamesArr img a
   | none => []) ++
  (match img.relocation.dynrel with
   | some a => unresolvedNamesArr img a
   | none => [])

/-- not_relocated (src/src/relocation.rs lines 263-294): the error message, built
by pushing one bracketed name per unresolved entry of the PLT array and then of
the dynamic array. -/
def notRelocated (img : ElfDylibM) : String :=
  (unresolvedNames img).foldl
    (fun acc n => acc ++ ("[" ++ n ++ "] "))
    (img.name ++ ": The symbols that have not been relocated:   ")

/-- the observable calls finish makes, in order. -/
inductive FinishEvent where
  | initF
  | initArrEv (i : Nat)
  | relroEv
  deriving DecidableEq, Repr

/-- finish (src/src/relocation.rs lines 214-230): when is_finished fails the
relocate error carrying not_relocated is returned and nothing runs; otherwise
the init function, then every init array function in order, then (when not
lazy) the relro protection.  The first component records the calls made. -/
def finish (img : ElfDylibM) : List FinishEvent × Except String Unit :=
  if !img.isFinished then ([], Except.error (notRelocated img))
  else
    ((if img.initFn then [FinishEvent.initF] else []) ++
      (List.range img.initArrayLen).map FinishEvent.initArrEv ++
      (if !img.lazy && img.relro then [FinishEvent.relroEv] else []),
     Except.ok ())

/-! ## Bootstrap program (src/mini-loader/src/main.rs) -/

namespace MiniLoader

/-- aux vector tags used by the bootstrap. -/
def AT_NULL : Nat := 0

/-- AT_PHDR tag. -/
def AT_PHDR : Nat := 3

/-- AT_PHENT tag. -/
def AT_PHENT : Nat := 4

/-- AT_PHNUM tag. -/
def AT_PHNUM : Nat := 5

/-- AT_BASE tag. -/
def AT_BASE : Nat := 7

/-- AT_ENTRY tag. -/
def AT_ENTRY : Nat := 9

/-- AT_EXECFN tag. -/
def AT_EXECFN : Nat := 31

/-- one auxiliary vector entry. -/
structure Aux where
  tag : Nat
  val : Nat
  deriving DecidableEq, Repr, Inhabited

/-- one step of the self-relocation loop (src/mini-loader/src/main.rs lines
121-127): a non-RELATIVE type makes print_str emit a message, and then the
entry is processed like the rest: the word base + r_addend is written at
address r_offset + base.  The second component collects the printed messages. -/
def selfRelocStep (base : Nat) (acc : Mem × List String) (rela : ElfRela) :
    Mem × List String :=
  (fun a => if a = rela.r_offset + base then base + rela.r_addend else acc.1 a,
   if rela.r_type ≠ REL_RELATIVE then acc.2 ++ ["unknown rela type"] else acc.2)

/-- the whole self-relocation loop over the first RELACOUNT entries. -/
def selfRelocate (base : Nat) (relas : List ElfRela) (m : Mem) :
    Mem × List String :=
  relas.foldl (selfRelocStep base) (m, [])

/-- the aux entry rewrite of one entry (src/mini-loader/src/main.rs lines
157-170): the match arms for the six touched tags; every other tag falls
through unchanged. -/
def rewriteAux (phdrAddr phnum phentSize entry execfn : Nat) (a : Aux) : Aux :=
  if a.tag = AT_PHDR then { a with val := phdrAddr }
  else if a.tag = AT_PHNUM then { a with val := phnum }
  else if a.tag = AT_PHENT then { a with val := phentSize }
  else if a.tag = AT_ENTRY then { a with val := entry }
  else if a.tag = AT_EXECFN then { a with val := execfn }
  else if a.tag = AT_BASE then { a with val := 0 }
  else a

/-- the aux vector rewrite loop: entries are rewritten in place until the first
AT_NULL entry, where the loop breaks; the call site passes the phdr table
address and count of the loaded target, the byte size of one phdr, the entry of
the target and the pointer to the target path string taken from argv[1]. -/
def rewriteAuxv (phdrAddr phnum phentSize entry execfn : Nat) :
    List Aux → List Aux
  | [] => []
  | a :: rest =>
    if a.tag = AT_NULL then a :: rest
    else rewriteAux phdrAddr phnum phentSize entry execfn a ::
      rewriteAuxv phdrAddr phnum phentSize entry execfn rest

/-- the argv shift (src/mini-loader/src/main.rs lines 176-179) on the initial
stack words starting at sp: the block from argv[0] on is copied one slot down
and argc - 1 is stored at sp, so argv[0] (the loader path) is dropped. -/
def shiftStack : List Nat → List Nat
  | argc :: _argv0 :: rest => (argc - 1) :: rest
  | l => l

end MiniLoader

/-! ## Concrete inputs used by counterexamples and witnesses -/

/-- a symbol entry with no content, for relSymbol defaults. -/
def noSym : ElfSymbol := { st_value := 0, st_info := 0, st_shndx := 0 }

/-- a SymbolInfo with no content. -/
def noInfo : SymbolInfo := { name := "", version := none }

/-- a defined symbol (st_shndx = 1) of a function (st_info = 0x12). -/
def c1Sym : ElfSymbol := { st_value := 0x500, st_info := 0x12, st_shndx := 1 }

/-- a SYMBOLIC relocation entry against symbol index 1. -/
def c1Rela : ElfRela := { r_offset := 8, r_type := REL_SYMBOLIC, r_sym := 1, r_addend := 4 }

/-- an image whose dynamic relocation array holds the single SYMBOLIC entry and
whose own symbol index defines the name foo at st_value 0x500. -/
def c1Img : ElfDylibM :=
  { base := 0x100000
    relSymbol := fun i => if i = 1 then (c1Sym, { name := "foo", version := none }) else (noSym, noInfo)
    tlsModId := none
    lazy := true
    relocation := ElfRelocation.new none (some [c1Rela])
    depLibs := []
    mem := fun _ => 0
    ifunc := fun a => a
    name := "c1"
    initFn := false
    initArrayLen := 0
    relro := false }

/-- a fallback resolver that defines foo at address 0xdead00. -/
def c1F : String → Option Nat := fun n => if n = "foo" then some 0xdead00 else none

/-- a JUMP_SLOT relocation entry against symbol index 1, for the PLT clause of
the amended resolution-order theorem. -/
def c1PltRela : ElfRela := { r_offset := 24, r_type := REL_JUMP_SLOT, r_sym := 1, r_addend := 0 }

/-- an image whose PLT array is still unfinished (stage Relocating, bit cleared)
while its dynamic array is finished, with lazy binding off: the state reached by
one relocate call on an object with one unresolvable JUMP_SLOT entry and an
empty dynamic array. -/
def c2Img : ElfDylibM :=
  { base := 0
    relSymbol := fun _ => (noSym, noInfo)
    tlsModId := none
    lazy := false
    relocation :=
      { pltrel := some
          { array := [{ r_offset := 0, r_type := REL_JUMP_SLOT, r_sym := 1, r_addend := 0 }]
            state := { relocated := [false], stage := RelocateStage.Relocating } }
        dynrel := some { array := [], state := { relocated := [], stage := RelocateStage.Finish } } }
    depLibs := []
    mem := fun _ => 0
    ifunc := fun a => a
    name := "c2"
    initFn := false
    initArrayLen := 0
    relro := false }

/-- does a finish event denote a constructor call (init or an init array entry). -/
def FinishEvent.isInit : FinishEvent → Bool
  | FinishEvent.initF => true
  | FinishEvent.initArrEv _ => true
  | FinishEvent.relroEv => false

/-- does a finish event denote the relro protection. -/
def FinishEvent.isRelro : FinishEvent → Bool
  | FinishEvent.relroEv => true
  | FinishEvent.initF => false
  | FinishEvent.initArrEv _ => false

/-- the ordering the claim asserts: no constructor call happens before the relro
protection in the trace. -/
def relroBeforeInit (evs : List FinishEvent) : Bool :=
  (evs.takeWhile (fun e => !e.isRelro)).all (fun e => !e.isInit)

/-- bitmap left by an Init stage pass: the bit of every failed entry is cleared. -/
def bmAfter (h : ElfRela → EntryResult) (l : List (Nat × ElfRela)) (bm : BitMap) : BitMap :=
  l.foldl (fun bm ie => if h ie.2 = EntryResult.fail then bm.clear ie.1 else bm) bm

/-- memory left by an Init stage pass: each write lands at base + its offset. -/
def memAfter (base : Nat) (h : ElfRela → EntryResult) (l : List (Nat × ElfRela)) (m : Mem) : Mem :=
  l.foldl (fun mm ie =>
    match h ie.2 with
    | EntryResult.write off val => writeVal base mm off val
    | _ => mm) m

/-- memory left by a pass, phrased over the bare entries. -/
def memAfterE (base : Nat) (h : ElfRela → EntryResult) (es : List ElfRela) (m : Mem) : Mem :=
  es.foldl (fun mm e =>
    match h e with
    | EntryResult.write off val => writeVal base mm off val
    | _ => mm) m

/-- did any entry of the pass fail. -/
def anyFail (h : ElfRela → EntryResult) (l : List (Nat × ElfRela)) : Bool :=
  l.any (fun ie => h ie.2 = EntryResult.fail)

/-- bitmap left by a Relocating stage pass over the given indices: each visited
bit is set first and cleared again when the entry fails. -/
def bmAfterR (h : ElfRela → EntryResult) (arr : List ElfRela) (idxs : List Nat) (bm : BitMap) : BitMap :=
  idxs.foldl (fun bm idx =>
    if h (arr.getD idx default) = EntryResult.fail then (bm.set idx).clear idx else bm.set idx) bm

/-- memory left by a Relocating stage pass over the given indices. -/
def memAfterR (base : Nat) (h : ElfRela → EntryResult) (arr : List ElfRela)
    (idxs : List Nat) (m : Mem) : Mem :=
  idxs.foldl (fun mm idx =>
    match h (arr.getD idx default) with
    | EntryResult.write off val => writeVal base mm off val
    | _ => mm) m

/-- did any visited entry of a Relocating stage pass fail. -/
def anyFailR (h : ElfRela → EntryResult) (arr : List ElfRela) (idxs : List Nat) : Bool :=
  idxs.any (fun idx => h (arr.getD idx default) = EntryResult.fail)

/-- a RELATIVE entry for the round-trip witness. -/
def c3E : ElfRela := { r_offset := 16, r_type := REL_RELATIVE, r_sym := 0, r_addend := 0x200 }

/-- an image holding one fresh RELATIVE dynamic entry. -/
def c3Img : ElfDylibM :=
  { base := 0x1000
    relSymbol := fun _ => (noSym, noInfo)
    tlsModId := none
    lazy := false
    relocation := ElfRelocation.new none (some [c3E])
    depLibs := []
    mem := fun _ => 0
    ifunc := fun a => a
    name := "c3"
    initFn := false
    initArrayLen := 0
    relro := false }

/-- the image relocate yields on c3Img: the RELATIVE word written, stage Finish. -/
def c3Res : ElfDylibM :=
  { c3Img with
    relocation := { pltrel := none
                    dynrel := some { array := [c3E]
                                     state := { relocated := [true], stage := RelocateStage.Finish } } }
    mem := writeVal 0x1000 (fun _ => 0) 16 0x1200 }

/-- an unfinished image whose dynamic array still holds one unresolved entry
against the name missing_sym. -/
def c4Img : ElfDylibM :=
  { base := 0
    relSymbol := fun i => if i = 1 then (noSym, { name := "missing_sym", version := none }) else (noSym, noInfo)
    tlsModId := none
    lazy := false
    relocation :=
      { pltrel := none
        dynrel := some
          { array := [{ r_offset := 0, r_type := REL_SYMBOLIC, r_sym := 1, r_addend := 0 }]
            state := { relocated := [false], stage := RelocateStage.Relocating } } }
    depLibs := []
    mem := fun _ => 0
    ifunc := fun a => a
    name := "c4"
    initFn := true
    initArrayLen := 1
    relro := false }

/-- a lazy image whose fresh PLT array references a symbol nobody defines and
whose dynamic array is absent. -/
def c6Img : ElfDylibM :=
  { base := 0x2000
    relSymbol := fun i => if i = 1 then (noSym, { name := "missing_sym", version := none }) else (noSym, noInfo)
    tlsModId := none
    lazy := true
    relocation := ElfRelocation.new
      (some [{ r_offset := 32, r_type := REL_JUMP_SLOT, r_sym := 1, r_addend := 0 }]) none
    depLibs := []
    mem := fun _ => 0
    ifunc := fun a => a
    name := "c6"
    initFn := true
    initArrayLen := 0
    relro := false }

/-- a non-lazy image whose fresh PLT array references a symbol nobody defines. -/
def c7Img : ElfDylibM :=
  { base := 0x3000
    relSymbol := fun i => if i = 1 then (noSym, { name := "missing_sym", version := none }) else (noSym, noInfo)
    tlsModId := none
    lazy := false
    relocation := ElfRelocation.new
      (some [{ r_offset := 32, r_type := REL_JUMP_SLOT, r_sym := 1, r_addend := 0 }]) none
    depLibs := []
    mem := fun _ => 0
    ifunc := fun a => a
    name := "c7"
    initFn := false
    initArrayLen := 0
    relro := false }

/-- the image the first relocate call yields on c7Img: the PLT entry failed, its
bit is cleared and the stage is Relocating. -/
def c7Res : ElfDylibM :=
  { c7Img with
    relocation :=
      { pltrel := some
          { array := [{ r_offset := 32, r_type := REL_JUMP_SLOT, r_sym := 1, r_addend := 0 }]
            state := { relocated := [false], stage := RelocateStage.Relocating } }
        dynrel := none } }

/-- an image whose two arrays are both already in stage Finish. -/
def c10Img : ElfDylibM :=
  { base := 0
    relSymbol := fun _ => (noSym, noInfo)
    tlsModId := none
    lazy := false
    relocation :=
      { pltrel := some { array := [], state := { relocated := [], stage := RelocateStage.Finish } }
        dynrel := some { array := [], state := { relocated := [], stage := RelocateStage.Finish } } }
    depLibs := []
    mem := fun _ => 0
    ifunc := fun a => a
    name := "c10"
    initFn := false
    initArrayLen := 0
    relro := false }

/-- a dependency image defining nothing. -/
def c10Lib : RelocatedDylibM :=
  { base := 0x9000, getSym := fun _ => none, tls := none }

/-- a finished image, lazy off, with an init function and a relro range. -/
def c5Img : ElfDylibM :=
  { base := 0
    relSymbol := fun _ => (noSym, noInfo)
    tlsModId := none
    lazy := false
    relocation := { pltrel := none
                    dynrel := some { array := [], state := { relocated := [], stage := RelocateStage.Finish } } }
    depLibs := []
    mem := fun _ => 0
    ifunc := fun a => a
    name := "c5"
    initFn := true
    initArrayLen := 0
    relro := true }

/-! ## Helper lemmas -/

theorem findSome?_map_inner {α β γ : Type} (g : β → γ) (f : α → Option β) (l : List α) :
    (l.findSome? f).map g = l.findSome? (fun a => (f a).map g) := by
  induction l with
  | nil => rfl
  | cons a l ih => cases h : f a <;> simp [List.findSome?_cons, h, ih]

/-- the dynEntry handler of an image whose relocation record, memory and
dependency list were replaced coincides with the original handler: it reads
none of these fields. -/
theorem dynEntry_update (img : ElfDylibM) (r : ElfRelocation) (m : Mem)
    (d : List RelocatedDylibM) (libs : List RelocatedDylibM) (f : String → Option Nat) :
    dynEntry { img with relocation := r, mem := m, depLibs := d } libs f = dynEntry img libs f := rfl

/-- as dynEntry_update, for the PLT handler. -/
theorem pltEntry_update (img : ElfDylibM) (r : ElfRelocation) (m : Mem)
    (d : List RelocatedDylibM) (libs : List RelocatedDylibM) (f : String → Option Nat) :
    pltEntry { img with relocation := r, mem := m, depLibs := d } libs f = pltEntry img libs f := rfl

/-- the dynamic handler reads only base, relSymbol, tlsModId and ifunc. -/
theorem dynEntry_ignores (img : ElfDylibM) {img2 : ElfDylibM} {libs : List RelocatedDylibM}
    {f : String → Option Nat}
    (hb : img2.base = img.base) (hrs : img2.relSymbol = img.relSymbol)
    (ht : img2.tlsModId = img.tlsModId) (hi : img2.ifunc = img.ifunc) :
    dynEntry img2 libs f = dynEntry img libs f := by
  funext rela
  unfold dynEntry findSymdef
  rw [hb, hrs, ht, hi]

/-- the PLT handler reads only base, relSymbol, tlsModId and ifunc. -/
theorem pltEntry_ignores (img : ElfDylibM) {img2 : ElfDylibM} {libs : List RelocatedDylibM}
    {f : String → Option Nat}
    (hb : img2.base = img.base) (hrs : img2.relSymbol = img.relSymbol)
    (ht : img2.tlsModId = img.tlsModId) (hi : img2.ifunc = img.ifunc) :
    pltEntry img2 libs f = pltEntry img libs f := by
  funext rela
  unfold pltEntry findSymdef
  rw [hb, hrs, ht, hi]

/-- dep_libs is appended on every successful relocate_impl call. -/
theorem relocateImpl_depLibs (img : ElfDylibM) (libs : List RelocatedDylibM)
    (f : String → Option Nat) (img' : ElfDylibM)
    (h : relocateImpl img libs f = some img') : img'.depLibs = img.depLibs ++ libs := by
  unfold relocateImpl at h
  cases hp : relocatePlt img libs f with
  | none => rw [hp] at h; exact absurd h (by simp)
  | some pm =>
    obtain ⟨plt', m1⟩ := pm
    rw [hp] at h
    dsimp only at h
    cases hd : relocateDyn img libs f m1 with
    | none => rw [hd] at h; exact absurd h (by simp)
    | some dm =>
      obtain ⟨dyn', m2⟩ := dm
      rw [hd] at h
      dsimp only at h
      simp only [Option.some.injEq] at h
      rw [← h]

/-- relocate_impl on an image whose present arrays are both in stage Finish does
no work: the image is returned unchanged apart from the appended dep_libs. -/
theorem relocateImpl_finished_noop (img : ElfDylibM) (libs : List RelocatedDylibM)
    (f : String → Option Nat)
    (hp : ∀ arr, img.relocation.pltrel = some arr → arr.state.stage = RelocateStage.Finish)
    (hd : ∀ arr, img.relocation.dynrel = some arr → arr.state.stage = RelocateStage.Finish) :
    relocateImpl img libs f = some { img with depLibs := img.depLibs ++ libs } := by
  have hplt : relocatePlt img libs f = some (img.relocation.pltrel, img.mem) := by
    cases hl : img.lazy with
    | true => simp [relocatePlt, hl]
    | false =>
      cases hpp : img.relocation.pltrel with
      | none => simp [relocatePlt, hl, hpp]
      | some arr =>
        have hst := hp arr hpp
        simp [relocatePlt, hl, hpp, ElfRelaArray.relocate, hst]
  have hdyn : ∀ m : Mem, relocateDyn img libs f m = some (img.relocation.dynrel, m) := by
    intro m
    cases hdd : img.relocation.dynrel with
    | none => simp [relocateDyn, hdd]
    | some arr =>
      have hst := hd arr hdd
      simp [relocateDyn, hdd, ElfRelaArray.relocate, hst]
  unfold relocateImpl
  rw [hplt]
  dsimp only
  rw [hdyn img.mem]

theorem optFold_none {α σ : Type} (g : α → σ → Option σ) (l : List α) :
    optFold g l none = none := by
  induction l with
  | nil => rfl
  | cons a l ih => exact ih

theorem optFold_cons {α σ : Type} (g : α → σ → Option σ) (a : α) (l : List α) (s : σ) :
    optFold g (a :: l) (some s) = optFold g l (g a s) := rfl

theorem entryStep_no_panic (base : Nat) (h : ElfRela → EntryResult) (l : List (Nat × ElfRela)) :
    ∀ sm sm', optFold (entryStep base h) l (some sm) = some sm' →
      ∀ ie ∈ l, h ie.2 ≠ EntryResult.panic := by
  induction l with
  | nil => intro sm sm' _ ie hie; simp at hie
  | cons a l ih =>
    intro sm sm' hfold ie hie
    rw [optFold_cons] at hfold
    cases hstep : entryStep base h a sm with
    | none => rw [hstep, optFold_none] at hfold; exact absurd hfold (by simp)
    | some sm2 =>
      rw [hstep] at hfold
      rcases List.mem_cons.mp hie with rfl | hmem
      · intro hpanic
        unfold entryStep at hstep
        rw [hpanic] at hstep
        exact absurd hstep (by simp)
      · exact ih sm2 sm' hfold ie hmem

theorem relocStep_no_panic (base : Nat) (h : ElfRela → EntryResult) (arr : List ElfRela)
    (idxs : List Nat) :
    ∀ sm sm', optFold (relocStep base h arr) idxs (some sm) = some sm' →
      ∀ i ∈ idxs, h (arr.getD i default) ≠ EntryResult.panic := by
  induction idxs with
  | nil => intro sm sm' _ i hi; simp at hi
  | cons a l ih =>
    intro sm sm' hfold i hi
    rw [optFold_cons] at hfold
    cases hstep : relocStep base h arr a sm with
    | none => rw [hstep, optFold_none] at hfold; exact absurd hfold (by simp)
    | some sm2 =>
      rw [hstep] at hfold
      rcases List.mem_cons.mp hi with rfl | hmem
      · intro hpanic
        unfold relocStep entryStep at hstep
        rw [hpanic] at hstep
        exact absurd hstep (by simp)
      · exact ih sm2 sm' hfold i hmem

theorem optFold_entryStep_char (base : Nat) (h : ElfRela → EntryResult)
    (l : List (Nat × ElfRela)) :
    ∀ (st : RelocateState) (m : Mem), (∀ ie ∈ l, h ie.2 ≠ EntryResult.panic) →
    optFold (entryStep base h) l (some (st, m)) = some
      ({ relocated := bmAfter h l st.relocated,
         stage := if anyFail h l then RelocateStage.Relocating else st.stage },
       memAfter base h l m) := by
  induction l with
  | nil => intro st m _; simp [optFold, bmAfter, anyFail, memAfter]
  | cons ie rest ih =>
    intro st m hnp
    have hrest : ∀ x ∈ rest, h x.2 ≠ EntryResult.panic :=
      fun x hx => hnp x (List.mem_cons_of_mem _ hx)
    rw [optFold_cons]
    cases hie : h ie.2 with
    | write off val =>
      have hstep : entryStep base h ie (st, m) = some (st, writeVal base m off val) := by
        unfold entryStep; rw [hie]
      have ha : anyFail h (ie :: rest) = anyFail h rest := by
        unfold anyFail; rw [List.any_cons, hie]; simp
      have hb : bmAfter h (ie :: rest) st.relocated = bmAfter h rest st.relocated := by
        unfold bmAfter; rw [List.foldl_cons, hie]; simp
      have hm : memAfter base h (ie :: rest) m = memAfter base h rest (writeVal base m off val) := by
        unfold memAfter; rw [List.foldl_cons, hie]
      rw [hstep, ih st (writeVal base m off val) hrest, ha, hb, hm]
    | fail =>
      have hstep : entryStep base h ie (st, m) = some (dealFail ie.1 st, m) := by
        unfold entryStep; rw [hie]
      have ha : anyFail h (ie :: rest) = true := by
        unfold anyFail; rw [List.any_cons, hie]; simp
      have hb : bmAfter h (ie :: rest) st.relocated = bmAfter h rest (st.relocated.clear ie.1) := by
        unfold bmAfter; rw [List.foldl_cons, hie]; simp
      have hm : memAfter base h (ie :: rest) m = memAfter base h rest m := by
        unfold memAfter; rw [List.foldl_cons, hie]
      rw [hstep, ih (dealFail ie.1 st) m hrest, ha, hb, hm]
      have hstage : (if anyFail h rest = true then RelocateStage.Relocating
          else (dealFail ie.1 st).stage) = RelocateStage.Relocating := by
        unfold dealFail
        exact ite_self _
      rw [hstage]
      simp [dealFail]
    | panic => exact absurd hie (hnp ie (List.mem_cons_self _ _))

theorem optFold_relocStep_char (base : Nat) (h : ElfRela → EntryResult) (arr : List ElfRela)
    (idxs : List Nat) :
    ∀ (st : RelocateState) (m : Mem), (∀ i ∈ idxs, h (arr.getD i default) ≠ EntryResult.panic) →
    optFold (relocStep base h arr) idxs (some (st, m)) = some
      ({ relocated := bmAfterR h arr idxs st.relocated,
         stage := if anyFailR h arr idxs then RelocateStage.Relocating else st.stage },
       memAfterR base h arr idxs m) := by
  induction idxs with
  | nil => intro st m _; simp [optFold, bmAfterR, anyFailR, memAfterR]
  | cons i rest ih =>
    intro st m hnp
    have hrest : ∀ x ∈ rest, h (arr.getD x default) ≠ EntryResult.panic :=
      fun x hx => hnp x (List.mem_cons_of_mem _ hx)
    rw [optFold_cons]
    cases hie : h (arr.getD i default) with
    | write off val =>
      have hstep : relocStep base h arr i (st, m) =
          some ({ st with relocated := st.relocated.set i }, writeVal base m off val) := by
        unfold relocStep entryStep; rw [hie]
      have ha : anyFailR h arr (i :: rest) = anyFailR h arr rest := by
        unfold anyFailR; rw [List.any_cons, hie]; simp
      have hb : bmAfterR h arr (i :: rest) st.relocated = bmAfterR h arr rest (st.relocated.set i) := by
        unfold bmAfterR; rw [List.foldl_cons, hie]; simp
      have hm : memAfterR base h arr (i :: rest) m =
          memAfterR base h arr rest (writeVal base m off val) := by
        unfold memAfterR; rw [List.foldl_cons, hie]
      rw [hstep, ih _ (writeVal base m off val) hrest, ha, hb, hm]
    | fail =>
      have hstep : relocStep base h arr i (st, m) =
          some (dealFail i { st with relocated := st.relocated.set i }, m) := by
        unfold relocStep entryStep; rw [hie]
      have ha : anyFailR h arr (i :: rest) = true := by
        unfold anyFailR; rw [List.any_cons, hie]; simp
      have hb : bmAfterR h arr (i :: rest) st.relocated =
          bmAfterR h arr rest ((st.relocated.set i).clear i) := by
        unfold bmAfterR; rw [List.foldl_cons, hie]; simp
      have hm : memAfterR base h arr (i :: rest) m = memAfterR base h arr rest m := by
        unfold memAfterR; rw [List.foldl_cons, hie]
      rw [hstep, ih _ m hrest, ha, hb, hm]
      have hstage : (if anyFailR h arr rest = true then RelocateStage.Relocating
          else (dealFail i { st with relocated := st.relocated.set i }).stage) =
          RelocateStage.Relocating := by
        unfold dealFail
        exact ite_self _
      rw [hstage]
      simp [dealFail]
    | panic => exact absurd hie (hnp i (List.mem_cons_self _ _))

/-! bitmap lemmas -/

theorem bitmap_get_set (bm : BitMap) (j i : Nat) (v : Bool) :
    BitMap.get (List.set bm j v) i = if i = j ∧ j < bm.length then v else bm.get i := by
  unfold BitMap.get
  simp only [List.getD_eq_getElem?_getD, List.getElem?_set]
  by_cases h : j = i
  · subst h
    by_cases hl : j < bm.length
    · simp [hl]
    · simp [hl, List.getElem?_eq_none (Nat.le_of_not_lt hl)]
  · have h' : ¬(i = j) := fun hc => h hc.symm
    simp [h, h']

theorem bitmap_get_clear (bm : BitMap) (j i : Nat) :
    (BitMap.clear bm j).get i = if i = j ∧ j < bm.length then false else bm.get i :=
  bitmap_get_set bm j i false

theorem bitmap_get_new (n i : Nat) : (BitMap.new n).get i = true := by
  unfold BitMap.new BitMap.get
  simp only [List.getD_eq_getElem?_getD, List.getElem?_replicate]
  by_cases h : i < n <;> simp [h]

theorem bitmap_length_new (n : Nat) : (BitMap.new n).length = n := List.length_replicate n true

theorem bitmap_set_id (bm : BitMap) (i : Nat) (hl : bm.get i = false) :
    BitMap.clear bm i = bm := by
  unfold BitMap.get at hl
  unfold BitMap.clear
  induction bm generalizing i with
  | nil => rfl
  | cons a l ih =>
    cases i with
    | zero => simp [List.getD] at hl; simp [List.set, hl]
    | succ i => simp only [List.getD_cons_succ] at hl; simp [List.set, ih i hl]

theorem bmAfter_length (h : ElfRela → EntryResult) (l : List (Nat × ElfRela)) :
    ∀ bm : BitMap, (bmAfter h l bm).length = bm.length := by
  induction l with
  | nil => intro bm; rfl
  | cons ie rest ih =>
    intro bm
    show (bmAfter h rest _).length = _
    rw [ih]
    by_cases hf : h ie.2 = EntryResult.fail <;> simp [hf, BitMap.clear]

theorem mem_clearedIdx (bm : BitMap) (i : Nat) :
    i ∈ clearedIdx bm ↔ i < bm.length ∧ bm.get i = false := by
  simp [clearedIdx, List.mem_filter, List.mem_range]

theorem bmAfter_false_src (h : ElfRela → EntryResult) (l : List (Nat × ElfRela)) :
    ∀ (bm : BitMap) (i : Nat), (bmAfter h l bm).get i = false →
      bm.get i = false ∨ ∃ e, (i, e) ∈ l ∧ h e = EntryResult.fail := by
  induction l with
  | nil => intro bm i hg; exact Or.inl hg
  | cons ie rest ih =>
    intro bm i hg
    have hstep : bmAfter h (ie :: rest) bm =
        bmAfter h rest (if h ie.2 = EntryResult.fail then bm.clear ie.1 else bm) := rfl
    rw [hstep] at hg
    rcases ih _ i hg with hacc | ⟨e, hmem, hfe⟩
    · by_cases hf : h ie.2 = EntryResult.fail
      · rw [if_pos hf, bitmap_get_clear] at hacc
        by_cases hij : i = ie.1 ∧ ie.1 < bm.length
        · right
          refine ⟨ie.2, ?_, hf⟩
          rw [hij.1]
          exact List.mem_cons_self _ _
        · rw [if_neg hij] at hacc
          exact Or.inl hacc
      · rw [if_neg hf] at hacc
        exact Or.inl hacc
    · exact Or.inr ⟨e, List.mem_cons_of_mem _ hmem, hfe⟩

theorem bmAfter_mono (h : ElfRela → EntryResult) (l : List (Nat × ElfRela)) :
    ∀ (bm : BitMap) (i : Nat), bm.get i = false → (bmAfter h l bm).get i = false := by
  induction l with
  | nil => intro bm i hg; exact hg
  | cons ie rest ih =>
    intro bm i hg
    have hstep : bmAfter h (ie :: rest) bm =
        bmAfter h rest (if h ie.2 = EntryResult.fail then bm.clear ie.1 else bm) := rfl
    rw [hstep]
    apply ih
    by_cases hf : h ie.2 = EntryResult.fail
    · rw [if_pos hf, bitmap_get_clear]
      by_cases hij : i = ie.1 ∧ ie.1 < bm.length
      · rw [if_pos hij]
      · rw [if_neg hij]; exact hg
    · rw [if_neg hf]; exact hg

theorem bmAfter_clears (h : ElfRela → EntryResult) (l : List (Nat × ElfRela)) :
    ∀ (bm : BitMap) (i : Nat) (e : ElfRela), (i, e) ∈ l → h e = EntryResult.fail →
      i < bm.length → (bmAfter h l bm).get i = false := by
  induction l with
  | nil => intro bm i e hmem; simp at hmem
  | cons ie rest ih =>
    intro bm i e hmem hf hi
    have hstep : bmAfter h (ie :: rest) bm =
        bmAfter h rest (if h ie.2 = EntryResult.fail then bm.clear ie.1 else bm) := rfl
    rw [hstep]
    rcases List.mem_cons.mp hmem with heq | hmem'
    · have h1 : ie.1 = i := by rw [← heq]
      have h2 : ie.2 = e := by rw [← heq]
      apply bmAfter_mono
      rw [h2, hf, if_pos rfl, h1, bitmap_get_clear, if_pos ⟨rfl, hi⟩]
    · apply ih _ i e hmem' hf
      by_cases hfa : h ie.2 = EntryResult.fail
      · rw [if_pos hfa]; simp [BitMap.clear, hi]
      · rw [if_neg hfa]; exact hi

/-! memory after a pass -/

theorem memAfter_eq_memAfterE (base : Nat) (h : ElfRela → EntryResult)
    (l : List (Nat × ElfRela)) (m : Mem) :
    memAfter base h l m = memAfterE base h (l.map Prod.snd) m := by
  unfold memAfterE
  rw [List.foldl_map]
  rfl

theorem memAfterR_eq_memAfterE (base : Nat) (h : ElfRela → EntryResult) (arr : List ElfRela)
    (idxs : List Nat) (m : Mem) :
    memAfterR base h arr idxs m = memAfterE base h (idxs.map (fun i => arr.getD i default)) m := by
  unfold memAfterE
  rw [List.foldl_map]
  rfl

theorem memAfterE_preserve (base : Nat) (h : ElfRela → EntryResult) (es : List ElfRela) :
    ∀ (m : Mem) (a : Nat), (∀ e ∈ es, ∀ o v, h e = EntryResult.write o v → base + o ≠ a) →
    memAfterE base h es m a = m a := by
  induction es with
  | nil => intro m a _; rfl
  | cons e rest ih =>
    intro m a hno
    have hrest : ∀ x ∈ rest, ∀ o v, h x = EntryResult.write o v → base + o ≠ a :=
      fun x hx => hno x (List.mem_cons_of_mem _ hx)
    cases he : h e with
    | write off val =>
      have hstep : memAfterE base h (e :: rest) m = memAfterE base h rest (writeVal base m off val) := by
        unfold memAfterE
        rw [List.foldl_cons]
        rw [he]
      rw [hstep, ih (writeVal base m off val) a hrest]
      unfold writeVal
      rw [if_neg (fun hc => hno e (List.mem_cons_self _ _) off val he hc.symm)]
    | fail =>
      have hstep : memAfterE base h (e :: rest) m = memAfterE base h rest m := by
        unfold memAfterE
        rw [List.foldl_cons]
        rw [he]
      rw [hstep]
      exact ih m a hrest
    | panic =>
      have hstep : memAfterE base h (e :: rest) m = memAfterE base h rest m := by
        unfold memAfterE
        rw [List.foldl_cons]
        rw [he]
      rw [hstep]
      exact ih m a hrest

theorem memAfterE_target (base : Nat) (h : ElfRela → EntryResult) (es : List ElfRela) :
    ∀ (m : Mem) (e : ElfRela) (v : Nat), e ∈ es → h e = EntryResult.write e.r_offset v →
    (∀ x ∈ es, ∀ o w, h x = EntryResult.write o w → o = x.r_offset) →
    (es.map ElfRela.r_offset).Nodup →
    memAfterE base h es m (base + e.r_offset) = v := by
  induction es with
  | nil => intro m e v he _ _ _; simp at he
  | cons a rest ih =>
    intro m e v he hw hoff hnd
    have hoffr : ∀ x ∈ rest, ∀ o w, h x = EntryResult.write o w → o = x.r_offset :=
      fun x hx => hoff x (List.mem_cons_of_mem _ hx)
    have hndr : (rest.map ElfRela.r_offset).Nodup := by
      rw [List.map_cons] at hnd
      exact hnd.of_cons
    rcases List.mem_cons.mp he with rfl | hmem
    · have hstep : memAfterE base h (e :: rest) m =
          memAfterE base h rest (writeVal base m e.r_offset v) := by
        unfold memAfterE
        rw [List.foldl_cons]
        rw [hw]
      rw [hstep]
      have hnot : e.r_offset ∉ rest.map ElfRela.r_offset := by
        rw [List.map_cons] at hnd
        exact (List.nodup_cons.mp hnd).1
      rw [memAfterE_preserve base h rest _ _ ?hno]
      case hno =>
        intro x hx o w hxw hc
        have ho : o = x.r_offset := hoffr x hx o w hxw
        have : x.r_offset = e.r_offset := by omega
        exact hnot (this ▸ List.mem_map_of_mem ElfRela.r_offset hx)
      unfold writeVal
      rw [if_pos rfl]
    · cases ha : h a with
      | write off val =>
        have hstep : memAfterE base h (a :: rest) m =
            memAfterE base h rest (writeVal base m off val) := by
          unfold memAfterE
          rw [List.foldl_cons]
          rw [ha]
        rw [hstep]
        exact ih _ e v hmem hw hoffr hndr
      | fail =>
        have hstep : memAfterE base h (a :: rest) m = memAfterE base h rest m := by
          unfold memAfterE
          rw [List.foldl_cons]
          rw [ha]
        rw [hstep]
        exact ih _ e v hmem hw hoffr hndr
      | panic =>
        have hstep : memAfterE base h (a :: rest) m = memAfterE base h rest m := by
          unfold memAfterE
          rw [List.foldl_cons]
          rw [ha]
        rw [hstep]
        exact ih _ e v hmem hw hoffr hndr

/-! array level characterizations -/

theorem relocate_finish_stage (a : ElfRelaArray) (base : Nat) (h : ElfRela → EntryResult)
    (m : Mem) (hst : a.state.stage = RelocateStage.Finish) :
    a.relocate base h m = some (a, m) := by
  unfold ElfRelaArray.relocate
  rw [hst]

theorem relocate_init_some (a : ElfRelaArray) (base : Nat) (h : ElfRela → EntryResult)
    (m : Mem) (arr' : ElfRelaArray) (m' : Mem)
    (hst : a.state.stage = RelocateStage.Init)
    (hrel : a.relocate base h m = some (arr', m')) :
    (∀ ie ∈ a.array.enum, h ie.2 ≠ EntryResult.panic) ∧
    arr' = { array := a.array,
             state := { relocated := bmAfter h a.array.enum a.state.relocated,
                        stage := if anyFail h a.array.enum then RelocateStage.Relocating
                                 else RelocateStage.Finish } } ∧
    m' = memAfter base h a.array.enum m := by
  unfold ElfRelaArray.relocate at hrel
  rw [hst] at hrel
  cases ho : optFold (entryStep base h) a.array.enum
      (some ({ relocated := a.state.relocated, stage := RelocateStage.Finish }, m)) with
  | none => rw [ho] at hrel; exact absurd hrel (by simp)
  | some sm =>
    obtain ⟨st2, m2⟩ := sm
    rw [ho] at hrel
    simp only [Option.some.injEq, Prod.mk.injEq] at hrel
    have hnp := entryStep_no_panic base h a.array.enum _ _ ho
    have hchar := optFold_entryStep_char base h a.array.enum
      { relocated := a.state.relocated, stage := RelocateStage.Finish } m hnp
    rw [ho] at hchar
    simp only [Option.some.injEq, Prod.mk.injEq] at hchar
    refine ⟨hnp, ?_, ?_⟩
    · rw [← hrel.1, hchar.1]
    · rw [← hrel.2, hchar.2]

theorem relocate_reloc_some (a : ElfRelaArray) (base : Nat) (h : ElfRela → EntryResult)
    (m : Mem) (arr' : ElfRelaArray) (m' : Mem)
    (hst : a.state.stage = RelocateStage.Relocating)
    (hrel : a.relocate base h m = some (arr', m')) :
    (∀ i ∈ clearedIdx a.state.relocated, h (a.array.getD i default) ≠ EntryResult.panic) ∧
    arr' = { array := a.array,
             state := { relocated := bmAfterR h a.array (clearedIdx a.state.relocated) a.state.relocated,
                        stage := if anyFailR h a.array (clearedIdx a.state.relocated)
                                 then RelocateStage.Relocating else RelocateStage.Finish } } ∧
    m' = memAfterR base h a.array (clearedIdx a.state.relocated) m := by
  unfold ElfRelaArray.relocate at hrel
  rw [hst] at hrel
  cases ho : optFold (relocStep base h a.array) (clearedIdx a.state.relocated)
      (some ({ relocated := a.state.relocated, stage := RelocateStage.Finish }, m)) with
  | none => rw [ho] at hrel; exact absurd hrel (by simp)
  | some sm =>
    obtain ⟨st2, m2⟩ := sm
    rw [ho] at hrel
    simp only [Option.some.injEq, Prod.mk.injEq] at hrel
    have hnp := relocStep_no_panic base h a.array (clearedIdx a.state.relocated) _ _ ho
    have hchar := optFold_relocStep_char base h a.array (clearedIdx a.state.relocated)
      { relocated := a.state.relocated, stage := RelocateStage.Finish } m hnp
    rw [ho] at hchar
    simp only [Option.some.injEq, Prod.mk.injEq] at hchar
    refine ⟨hnp, ?_, ?_⟩
    · rw [← hrel.1, hchar.1]
    · rw [← hrel.2, hchar.2]

/-! lemmas about the entry handlers -/

theorem match_write_target (x : Option Nat) (off : Nat) (g : Nat → Nat) (o v : Nat)
    (h : (match x with
          | none => EntryResult.fail
          | some s => EntryResult.write off (g s)) = EntryResult.write o v) : o = off := by
  cases x <;> simp_all

theorem match_symdef_tls_target (x : Option SymDef) (off o v : Nat)
    (h : (match x with
          | none => EntryResult.fail
          | some sd =>
            match sd.tls with
            | none => EntryResult.panic
            | some t => EntryResult.write off t) = EntryResult.write o v) : o = off := by
  cases x with
  | none => simp_all
  | some sd => cases htls : sd.tls <;> simp_all

theorem match_tlsmod_target (x : Option Nat) (off o v : Nat)
    (h : (match x with
          | none => EntryResult.panic
          | some t => EntryResult.write off t) = EntryResult.write o v) : o = off := by
  cases x <;> simp_all

theorem match_symdef_target (x : Option SymDef) (off : Nat) (g : SymDef → Nat) (o v : Nat)
    (h : (match x with
          | none => EntryResult.fail
          | some sd => EntryResult.write off (g sd)) = EntryResult.write o v) : o = off := by
  cases x <;> simp_all

theorem match_no_write (x : Option Nat) (o v : Nat)
    (h : (match x with
          | none => EntryResult.fail
          | some _ => EntryResult.panic) = EntryResult.write o v) : False := by
  cases x <;> simp_all

theorem dynEntry_write_off (img : ElfDylibM) (libs : List RelocatedDylibM)
    (f : String → Option Nat) (rela : ElfRela) (o v : Nat)
    (h : dynEntry img libs f rela = EntryResult.write o v) : o = rela.r_offset := by
  unfold dynEntry at h
  repeat' split at h
  all_goals first
    | (simp_all; done)
    | exact match_write_target _ _ _ _ _ h
    | exact match_symdef_tls_target _ _ _ _ h
    | exact match_tlsmod_target _ _ _ _ h
    | exact match_symdef_target _ _ _ _ _ h

theorem pltEntry_write_off (img : ElfDylibM) (libs : List RelocatedDylibM)
    (f : String → Option Nat) (rela : ElfRela) (o v : Nat)
    (h : pltEntry img libs f rela = EntryResult.write o v) : o = rela.r_offset := by
  unfold pltEntry at h
  repeat' split at h
  all_goals first
    | (simp_all; done)
    | exact match_write_target _ _ _ _ _ h
    | exact match_symdef_tls_target _ _ _ _ h
    | exact match_tlsmod_target _ _ _ _ h
    | exact match_symdef_target _ _ _ _ _ h
    | exact (match_no_write _ _ _ h).elim

theorem dynEntry_relative (img : ElfDylibM) (libs : List RelocatedDylibM)
    (f : String → Option Nat) (rela : ElfRela) (h : rela.r_type = REL_RELATIVE) :
    dynEntry img libs f rela = EntryResult.write rela.r_offset (img.base + rela.r_addend) := by
  unfold dynEntry
  rw [h]
  norm_num [REL_RELATIVE, REL_GOT, REL_SYMBOLIC]

theorem dynEntry_default_panic (img : ElfDylibM) (libs : List RelocatedDylibM)
    (f : String → Option Nat) : dynEntry img libs f default = EntryResult.panic := rfl

theorem getD_mem_of_lt (l : List ElfRela) (i : Nat) (hi : i < l.length) :
    l.getD i default ∈ l := by
  rw [List.getD_eq_getElem?_getD, List.getElem?_eq_getElem hi]
  exact List.getElem_mem hi

/-! destructuring relocate_impl -/

theorem relocateImpl_parts (img : ElfDylibM) (libs : List RelocatedDylibM)
    (f : String → Option Nat) (img' : ElfDylibM)
    (h : relocateImpl img libs f = some img') :
    ∃ plt' m1 dyn' m2, relocatePlt img libs f = some (plt', m1) ∧
      relocateDyn img libs f m1 = some (dyn', m2) ∧
      img' = { img with
        relocation := { pltrel := plt', dynrel := dyn' }
        mem := m2
        depLibs := img.depLibs ++ libs } := by
  unfold relocateImpl at h
  cases hp : relocatePlt img libs f with
  | none => rw [hp] at h; exact absurd h (by simp)
  | some pm =>
    obtain ⟨plt', m1⟩ := pm
    rw [hp] at h
    dsimp only at h
    cases hd : relocateDyn img libs f m1 with
    | none => rw [hd] at h; exact absurd h (by simp)
    | some dm =>
      obtain ⟨dyn', m2⟩ := dm
      rw [hd] at h
      dsimp only at h
      simp only [Option.some.injEq] at h
      exact ⟨plt', m1, dyn', m2, rfl, hd, h.symm⟩

theorem relocatePlt_lazy (img : ElfDylibM) (libs : List RelocatedDylibM)
    (f : String → Option Nat) (hl : img.lazy = true) :
    relocatePlt img libs f = some (img.relocation.pltrel, img.mem) := by
  simp [relocatePlt, hl]

theorem relocateDyn_none_arr (img : ElfDylibM) (libs : List RelocatedDylibM)
    (f : String → Option Nat) (m : Mem) (hd : img.relocation.dynrel = none) :
    relocateDyn img libs f m = some (none, m) := by
  simp [relocateDyn, hd]

/-! string message lemmas -/

theorem str_data_append (s t : String) : (s ++ t).data = s.data ++ t.data := rfl

theorem foldl_msg_front (l : List String) :
    ∀ acc : String, ∃ t, acc.data ++ t =
      (l.foldl (fun a x => a ++ ("[" ++ x ++ "] ")) acc).data := by
  induction l with
  | nil => intro acc; exact ⟨[], List.append_nil _⟩
  | cons b rest ih =>
    intro acc
    have hfold : (b :: rest).foldl (fun a x => a ++ ("[" ++ x ++ "] ")) acc =
        rest.foldl (fun a x => a ++ ("[" ++ x ++ "] ")) (acc ++ ("[" ++ b ++ "] ")) := rfl
    rw [hfold]
    obtain ⟨t, ht⟩ := ih (acc ++ ("[" ++ b ++ "] "))
    refine ⟨("[" ++ b ++ "] ").data ++ t, ?_⟩
    rw [← ht]
    simp [str_data_append, List.append_assoc]

theorem name_in_msg (names : List String) :
    ∀ (init : String) (n : String), n ∈ names →
      ∃ s t, s ++ n.data ++ t =
        (names.foldl (fun acc x => acc ++ ("[" ++ x ++ "] ")) init).data := by
  induction names with
  | nil => intro init n hn; simp at hn
  | cons a rest ih =>
    intro init n hn
    have hfold : (a :: rest).foldl (fun acc x => acc ++ ("[" ++ x ++ "] ")) init =
        rest.foldl (fun acc x => acc ++ ("[" ++ x ++ "] ")) (init ++ ("[" ++ a ++ "] ")) := rfl
    rw [hfold]
    rcases List.mem_cons.mp hn with rfl | hmem
    · obtain ⟨t, ht⟩ := foldl_msg_front rest (init ++ ("[" ++ n ++ "] "))
      refine ⟨init.data ++ "[".data, "] ".data ++ t, ?_⟩
      rw [← ht]
      simp only [str_data_append, List.append_assoc]
    · exact ih (init ++ ("[" ++ a ++ "] ")) n hmem

/-! second-pass lemmas for idempotence -/

theorem set_clear_eq_clear (bm : BitMap) (i : Nat) :
    BitMap.clear (BitMap.set bm i) i = BitMap.clear bm i := by
  unfold BitMap.set BitMap.clear
  exact List.set_set _ _ _ _

theorem bmAfterR_all_fail (h : ElfRela → EntryResult) (arr : List ElfRela) (idxs : List Nat) :
    ∀ bm : BitMap, (∀ i ∈ idxs, h (arr.getD i default) = EntryResult.fail) →
      (∀ i ∈ idxs, bm.get i = false) → bmAfterR h arr idxs bm = bm := by
  induction idxs with
  | nil => intro bm _ _; rfl
  | cons i rest ih =>
    intro bm hall hcl
    have hstep : bmAfterR h arr (i :: rest) bm =
        bmAfterR h arr rest (if h (arr.getD i default) = EntryResult.fail
          then (bm.set i).clear i else bm.set i) := rfl
    rw [hstep, if_pos (hall i (List.mem_cons_self _ _)), set_clear_eq_clear,
      bitmap_set_id bm i (hcl i (List.mem_cons_self _ _))]
    exact ih bm (fun j hj => hall j (List.mem_cons_of_mem _ hj))
      (fun j hj => hcl j (List.mem_cons_of_mem _ hj))

theorem memAfterR_all_fail (base : Nat) (h : ElfRela → EntryResult) (arr : List ElfRela)
    (idxs : List Nat) :
    ∀ m : Mem, (∀ i ∈ idxs, h (arr.getD i default) = EntryResult.fail) →
      memAfterR base h arr idxs m = m := by
  induction idxs with
  | nil => intro m _; rfl
  | cons i rest ih =>
    intro m hall
    have hstep : memAfterR base h arr (i :: rest) m =
        memAfterR base h arr rest (match h (arr.getD i default) with
          | EntryResult.write off val => writeVal base m off val
          | _ => m) := rfl
    rw [hstep, hall i (List.mem_cons_self _ _)]
    exact ih m (fun j hj => hall j (List.mem_cons_of_mem _ hj))

theorem relocate_reloc_eq (a : ElfRelaArray) (base : Nat) (h : ElfRela → EntryResult) (m : Mem)
    (hst : a.state.stage = RelocateStage.Relocating) :
    a.relocate base h m =
      match optFold (relocStep base h a.array) (clearedIdx a.state.relocated)
        (some ({ relocated := a.state.relocated, stage := RelocateStage.Finish }, m)) with
      | none => none
      | some (st, m') => some ({ array := a.array, state := st }, m') := by
  obtain ⟨arr, st⟩ := a
  obtain ⟨bm, stage⟩ := st
  dsimp only at hst
  subst hst
  rfl

/-- after a first pass on a fresh array, a second pass over the same array
reprocesses exactly the failed entries, fails them again, writes nothing and
returns the array state unchanged, whatever the memory. -/
theorem relocate_again (base : Nat) (h : ElfRela → EntryResult) (a arr' : ElfRelaArray)
    (m m' : Mem)
    (hfresh : a.state = { relocated := BitMap.new a.array.length, stage := RelocateStage.Init })
    (hrel : a.relocate base h m = some (arr', m')) :
    ∀ m2 : Mem, arr'.relocate base h m2 = some (arr', m2) := by
  have hst : a.state.stage = RelocateStage.Init := by rw [hfresh]
  obtain ⟨hnp, harr, hm⟩ := relocate_init_some a base h m arr' m' hst hrel
  have hbm : a.state.relocated = BitMap.new a.array.length := by rw [hfresh]
  intro m2
  by_cases haf : anyFail h a.array.enum = true
  case neg =>
    apply relocate_finish_stage
    rw [harr]
    simp [haf]
  case pos =>
    have hbm' : arr'.state.relocated = bmAfter h a.array.enum (BitMap.new a.array.length) := by
      rw [harr, ← hbm]
    have hlen : arr'.state.relocated.length = a.array.length := by
      rw [hbm', bmAfter_length, bitmap_length_new]
    have hfail : ∀ i ∈ clearedIdx arr'.state.relocated,
        h (a.array.getD i default) = EntryResult.fail := by
      intro i hi
      obtain ⟨hilt, hg⟩ := (mem_clearedIdx _ i).mp hi
      rw [hbm'] at hg
      rcases bmAfter_false_src h a.array.enum _ i hg with hnew | ⟨e, hmem, hfe⟩
      · rw [bitmap_get_new] at hnew
        exact absurd hnew (by simp)
      · have hg2 := List.mk_mem_enum_iff_getElem?.mp hmem
        have hgd : a.array.getD i default = e := by
          rw [List.getD_eq_getElem?_getD, hg2]
          rfl
        rw [hgd]
        exact hfe
    have hclr : ∀ i ∈ clearedIdx arr'.state.relocated, arr'.state.relocated.get i = false :=
      fun i hi => ((mem_clearedIdx _ i).mp hi).2
    have hne : clearedIdx arr'.state.relocated ≠ [] := by
      unfold anyFail at haf
      rw [List.any_eq_true] at haf
      obtain ⟨ie, hie, hfe⟩ := haf
      simp only [decide_eq_true_eq] at hfe
      obtain ⟨i, e⟩ := ie
      have hg2 := List.mk_mem_enum_iff_getElem?.mp hie
      have hilt : i < a.array.length := by
        by_contra hnl
        rw [List.getElem?_eq_none (Nat.le_of_not_lt hnl)] at hg2
        exact absurd hg2 (by simp)
      have hcl : arr'.state.relocated.get i = false := by
        rw [hbm']
        exact bmAfter_clears h a.array.enum _ i e hie hfe
          (by rw [bitmap_length_new]; exact hilt)
      intro hemp
      have hmem2 : i ∈ clearedIdx arr'.state.relocated :=
        (mem_clearedIdx _ i).mpr ⟨by rw [hlen]; exact hilt, hcl⟩
      rw [hemp] at hmem2
      simp at hmem2
    have hstR : arr'.state.stage = RelocateStage.Relocating := by
      rw [harr]
      simp [haf]
    have harr_array : arr'.array = a.array := by rw [harr]
    have hnp2 : ∀ i ∈ clearedIdx arr'.state.relocated,
        h (arr'.array.getD i default) ≠ EntryResult.panic := by
      intro i hi
      rw [harr_array, hfail i hi]
      simp
    rw [relocate_reloc_eq arr' base h m2 hstR,
      optFold_relocStep_char base h arr'.array (clearedIdx arr'.state.relocated) _ m2 hnp2]
    dsimp only
    have hbm2 : bmAfterR h arr'.array (clearedIdx arr'.state.relocated) arr'.state.relocated
        = arr'.state.relocated := by
      apply bmAfterR_all_fail
      · intro i hi
        rw [harr_array]
        exact hfail i hi
      · exact hclr
    have hmem2 : memAfterR base h arr'.array (clearedIdx arr'.state.relocated) m2 = m2 := by
      apply memAfterR_all_fail
      intro i hi
      rw [harr_array]
      exact hfail i hi
    have hanyr : anyFailR h arr'.array (clearedIdx arr'.state.relocated) = true := by
      unfold anyFailR
      rw [List.any_eq_true]
      cases hce : clearedIdx arr'.state.relocated with
      | nil => exact absurd hce hne
      | cons j js =>
        have hjmem : j ∈ clearedIdx arr'.state.relocated := by
          rw [hce]
          exact List.mem_cons_self _ _
        refine ⟨j, List.mem_cons_self _ _, ?_⟩
        simp only [decide_eq_true_eq]
        rw [harr_array]
        exact hfail j hjmem
    rw [hbm2, hmem2, hanyr, if_pos rfl, ← hstR]

/-- the PLT half of a relocate call, analysed by cases. -/
theorem relocatePlt_cases (img : ElfDylibM) (libs : List RelocatedDylibM)
    (f : String → Option Nat) (plt' : Option ElfRelaArray) (m1 : Mem)
    (hl : img.lazy = false)
    (hp : relocatePlt img libs f = some (plt', m1)) :
    (img.relocation.pltrel = none ∧ plt' = none ∧ m1 = img.mem) ∨
    (∃ arr arrP, img.relocation.pltrel = some arr ∧ plt' = some arrP ∧
      arr.relocate img.base (pltEntry img libs f) img.mem = some (arrP, m1)) := by
  unfold relocatePlt at hp
  rw [if_neg (by rw [hl]; exact Bool.false_ne_true)] at hp
  cases hpp : img.relocation.pltrel with
  | none =>
    rw [hpp] at hp
    simp only [Option.some.injEq, Prod.mk.injEq] at hp
    exact Or.inl ⟨rfl, hp.1.symm, hp.2.symm⟩
  | some arr =>
    rw [hpp] at hp
    dsimp only at hp
    cases hra : arr.relocate img.base (pltEntry img libs f) img.mem with
    | none => rw [hra] at hp; exact absurd hp (by simp)
    | some am =>
      obtain ⟨arrP, mP⟩ := am
      rw [hra] at hp
      simp only [Option.some.injEq, Prod.mk.injEq] at hp
      exact Or.inr ⟨arr, arrP, rfl, hp.1.symm, by rw [hra, hp.2]⟩

/-- the dynamic half of a relocate call, analysed by cases. -/
theorem relocateDyn_cases (img : ElfDylibM) (libs : List RelocatedDylibM)
    (f : String → Option Nat) (m : Mem) (dyn' : Option ElfRelaArray) (m2 : Mem)
    (hd : relocateDyn img libs f m = some (dyn', m2)) :
    (img.relocation.dynrel = none ∧ dyn' = none ∧ m2 = m) ∨
    (∃ arr arrD, img.relocation.dynrel = some arr ∧ dyn' = some arrD ∧
      arr.relocate img.base (dynEntry img libs f) m = some (arrD, m2)) := by
  unfold relocateDyn at hd
  cases hdd : img.relocation.dynrel with
  | none =>
    rw [hdd] at hd
    simp only [Option.some.injEq, Prod.mk.injEq] at hd
    exact Or.inl ⟨rfl, hd.1.symm, hd.2.symm⟩
  | some arr =>
    rw [hdd] at hd
    dsimp only at hd
    cases hra : arr.relocate img.base (dynEntry img libs f) m with
    | none => rw [hra] at hd; exact absurd hd (by simp)
    | some am =>
      obtain ⟨arrD, mD⟩ := am
      rw [hra] at hd
      simp only [Option.some.injEq, Prod.mk.injEq] at hd
      exact Or.inr ⟨arr, arrD, rfl, hd.1.symm, by rw [hra, hd.2]⟩

/-! ## Claims -/

/-- C2.  The claim (is_finished must be the conjunction of both array states) is
right and the code is wrong: on an image with lazy off whose PLT array is still
in stage Relocating while the dynamic array is in stage Finish, the source
is_finished overwrites the PLT answer with the dynamic answer and returns true,
while the specified conjunction returns false. -/
theorem c2_is_finished_code_bug :
    c2Img.isFinished = true ∧ c2Img.isFinishedSpec = false := by
  exact ⟨rfl, rfl⟩

/-- C8.  In the bootstrap self-relocation loop a non-RELATIVE entry makes the
code print the message but the loop neither aborts nor skips the entry: it
still writes base + r_addend at r_offset + base.  At base 0x1000, with a
RELATIVE entry (offset 16, addend 0x200) followed by a JUMP_SLOT entry (offset
24, addend 0x300), the message is emitted, the RELATIVE word is written as the
claim states, and the JUMP_SLOT entry is written as well, which the claim
forbids. -/
theorem c8_bootstrap_selfreloc_code_bug :
    (MiniLoader.selfRelocate 0x1000
        [{ r_offset := 16, r_type := REL_RELATIVE, r_sym := 0, r_addend := 0x200 },
         { r_offset := 24, r_type := REL_JUMP_SLOT, r_sym := 1, r_addend := 0x300 }]
        (fun _ => 0)).2 = ["unknown rela type"] ∧
    (MiniLoader.selfRelocate 0x1000
        [{ r_offset := 16, r_type := REL_RELATIVE, r_sym := 0, r_addend := 0x200 },
         { r_offset := 24, r_type := REL_JUMP_SLOT, r_sym := 1, r_addend := 0x300 }]
        (fun _ => 0)).1 (0x1000 + 16) = 0x1000 + 0x200 ∧
    (MiniLoader.selfRelocate 0x1000
        [{ r_offset := 16, r_type := REL_RELATIVE, r_sym := 0, r_addend := 0x200 },
         { r_offset := 24, r_type := REL_JUMP_SLOT, r_sym := 1, r_addend := 0x300 }]
        (fun _ => 0)).1 (0x1000 + 24) = 0x1000 + 0x300 := by
  refine ⟨rfl, by decide, by decide⟩

/-- C1, counterexample.  The claim says the fallback resolver is consulted only
after the own-symbol check and the dependency scan, and that its answer is
never used when the own symbol of the entry is defined.  On an image whose one
SYMBOLIC entry names foo, defined by the own image at 0x100000 + 0x500, while
the fallback resolver maps foo to 0xdead00, the relocated word is
0xdead00 + 4 (the fallback answer plus addend) and not 0x100504. -/
theorem c1_resolution_order_counterexample :
    (relocateImpl c1Img [] c1F).map (fun i => i.mem (0x100000 + 8)) = some (0xdead00 + 4) ∧
    0xdead00 + 4 ≠ 0x100000 + 0x500 + 4 := by
  refine ⟨by decide, by decide⟩

/-- C1, amended.  For every non-RELATIVE relocation entry with a nonzero symbol
index, resolution proceeds as follows.  For JUMP_SLOT (PLT array) and for
GLOB_DAT and SYMBOLIC (dynamic array) entries: (1) the fallback resolver is
consulted first and its answer, when some, is used even when the own symbol of
the entry is defined; (2) when the fallback returns none and the own symbol is
defined (st_shndx not SHN_UNDEF), the owning image provides the value; (3) when
the fallback returns none and the own symbol is undefined, the dependency
images are scanned in order and the first one defining the name (with version
if present) provides the value, a missing definition marking the entry failed.
For the TLS entries DTPMOD and DTPOFF the fallback resolver is never consulted
(the result is the same for every resolver): the own-image/dependency-scan
order (2)-(3) alone applies, a missing definition marking the entry failed. -/
theorem c1_resolution_order_amended (img : ElfDylibM) (libs : List RelocatedDylibM)
    (f : String → Option Nat) (rela : ElfRela) (hsym : rela.r_sym ≠ 0) :
    (rela.r_type = REL_JUMP_SLOT →
      (∀ p, f (img.relSymbol rela.r_sym).2.name = some p →
        pltEntry img libs f rela = EntryResult.write rela.r_offset p) ∧
      (f (img.relSymbol rela.r_sym).2.name = none →
        (img.relSymbol rela.r_sym).1.st_shndx ≠ SHN_UNDEF →
        pltEntry img libs f rela = EntryResult.write rela.r_offset
          (SymDef.into img.ifunc
            { sym := (img.relSymbol rela.r_sym).1, base := img.base, tls := img.tlsModId })) ∧
      (f (img.relSymbol rela.r_sym).2.name = none →
        (img.relSymbol rela.r_sym).1.st_shndx = SHN_UNDEF →
        pltEntry img libs f rela =
          match libs.findSome? (fun lib => (lib.getSym (img.relSymbol rela.r_sym).2).map
              (fun sym => SymDef.into img.ifunc { sym := sym, base := lib.base, tls := lib.tls })) with
          | some s => EntryResult.write rela.r_offset s
          | none => EntryResult.fail)) ∧
    ((rela.r_type = REL_GOT ∨ rela.r_type = REL_SYMBOLIC) →
      (∀ p, f (img.relSymbol rela.r_sym).2.name = some p →
        dynEntry img libs f rela = EntryResult.write rela.r_offset (p + rela.r_addend)) ∧
      (f (img.relSymbol rela.r_sym).2.name = none →
        (img.relSymbol rela.r_sym).1.st_shndx ≠ SHN_UNDEF →
        dynEntry img libs f rela = EntryResult.write rela.r_offset
          (SymDef.into img.ifunc
            { sym := (img.relSymbol rela.r_sym).1, base := img.base, tls := img.tlsModId }
            + rela.r_addend)) ∧
      (f (img.relSymbol rela.r_sym).2.name = none →
        (img.relSymbol rela.r_sym).1.st_shndx = SHN_UNDEF →
        dynEntry img libs f rela =
          match libs.findSome? (fun lib => (lib.getSym (img.relSymbol rela.r_sym).2).map
              (fun sym => SymDef.into img.ifunc { sym := sym, base := lib.base, tls := lib.tls })) with
          | some s => EntryResult.write rela.r_offset (s + rela.r_addend)
          | none => EntryResult.fail)) ∧
    (rela.r_type = REL_DTPMOD →
      (∀ g : String → Option Nat, dynEntry img libs g rela = dynEntry img libs f rela) ∧
      ((img.relSymbol rela.r_sym).1.st_shndx ≠ SHN_UNDEF →
        dynEntry img libs f rela =
          match img.tlsModId with
          | none => EntryResult.panic
          | some t => EntryResult.write rela.r_offset t) ∧
      ((img.relSymbol rela.r_sym).1.st_shndx = SHN_UNDEF →
        dynEntry img libs f rela =
          match libs.findSome? (fun lib => (lib.getSym (img.relSymbol rela.r_sym).2).map
              (fun sym => SymDef.mk sym lib.base lib.tls)) with
          | none => EntryResult.fail
          | some sd =>
            match sd.tls with
            | none => EntryResult.panic
            | some t => EntryResult.write rela.r_offset t)) ∧
    (rela.r_type = REL_DTPOFF →
      (∀ g : String → Option Nat, dynEntry img libs g rela = dynEntry img libs f rela) ∧
      ((img.relSymbol rela.r_sym).1.st_shndx ≠ SHN_UNDEF →
        dynEntry img libs f rela = EntryResult.write rela.r_offset
          (((img.relSymbol rela.r_sym).1.st_value + rela.r_addend +
            (WORD_MOD - TLS_DTV_OFFSET)) % WORD_MOD)) ∧
      ((img.relSymbol rela.r_sym).1.st_shndx = SHN_UNDEF →
        dynEntry img libs f rela =
          match libs.findSome? (fun lib => (lib.getSym (img.relSymbol rela.r_sym).2).map
              (fun sym => SymDef.mk sym lib.base lib.tls)) with
          | none => EntryResult.fail
          | some sd => EntryResult.write rela.r_offset
              ((sd.sym.st_value + rela.r_addend + (WORD_MOD - TLS_DTV_OFFSET)) % WORD_MOD))) := by
  refine ⟨?_, ?_, ?_, ?_⟩
  · intro hty
    refine ⟨?_, ?_, ?_⟩
    · intro p hf
      simp [pltEntry, hsym, hf, hty, Option.or]
    · intro hf hdef
      simp [pltEntry, hsym, hf, hty, Option.or, findSymdef, hdef]
    · intro hf hundef
      have hmap := findSome?_map_inner (SymDef.into img.ifunc)
        (fun lib => (lib.getSym (img.relSymbol rela.r_sym).2).map
          (fun sym => SymDef.mk sym lib.base lib.tls)) libs
      simp only [Option.map_map, Function.comp_def] at hmap
      simp only [pltEntry, hsym, hf, hty, Option.or, findSymdef, hundef, SHN_UNDEF,
        ne_eq, not_true_eq_false, if_false, ite_true, ite_false, not_false_eq_true, if_true]
      rw [← hmap]
      cases hfs : libs.findSome? (fun lib => (lib.getSym (img.relSymbol rela.r_sym).2).map
          (fun sym => SymDef.mk sym lib.base lib.tls)) <;> rfl
  · intro hty
    refine ⟨?_, ?_, ?_⟩
    · intro p hf
      rcases hty with h | h <;>
        simp [dynEntry, hsym, hf, h, Option.or]
    · intro hf hdef
      rcases hty with h | h <;>
        simp [dynEntry, hsym, hf, h, Option.or, findSymdef, hdef]
    · intro hf hundef
      have hmap := findSome?_map_inner (SymDef.into img.ifunc)
        (fun lib => (lib.getSym (img.relSymbol rela.r_sym).2).map
          (fun sym => SymDef.mk sym lib.base lib.tls)) libs
      simp only [Option.map_map, Function.comp_def] at hmap
      rcases hty with h | h <;>
      · simp only [dynEntry, hsym, hf, h, Option.or, findSymdef, hundef, SHN_UNDEF,
          ne_eq, not_true_eq_false, if_false, ite_true, ite_false, not_false_eq_true,
          if_true, true_or, or_true]
        rw [← hmap]
        cases hfs : libs.findSome? (fun lib => (lib.getSym (img.relSymbol rela.r_sym).2).map
            (fun sym => SymDef.mk sym lib.base lib.tls)) <;> rfl
  · intro hty
    refine ⟨?_, ?_, ?_⟩
    · intro g
      simp [dynEntry, hsym, hty, REL_GOT, REL_SYMBOLIC, REL_RELATIVE, REL_DTPMOD]
    · intro hdef
      simp [dynEntry, hsym, hty, REL_GOT, REL_SYMBOLIC, REL_RELATIVE, REL_DTPMOD,
        findSymdef, hdef]
    · intro hundef
      simp [dynEntry, hsym, hty, REL_GOT, REL_SYMBOLIC, REL_RELATIVE, REL_DTPMOD,
        findSymdef, hundef, SHN_UNDEF]
  · intro hty
    refine ⟨?_, ?_, ?_⟩
    · intro g
      simp [dynEntry, hsym, hty, REL_GOT, REL_SYMBOLIC, REL_RELATIVE, REL_DTPMOD, REL_DTPOFF]
    · intro hdef
      simp [dynEntry, hsym, hty, REL_GOT, REL_SYMBOLIC, REL_RELATIVE, REL_DTPMOD, REL_DTPOFF,
        findSymdef, hdef]
    · intro hundef
      simp [dynEntry, hsym, hty, REL_GOT, REL_SYMBOLIC, REL_RELATIVE, REL_DTPMOD, REL_DTPOFF,
        findSymdef, hundef, SHN_UNDEF]

/-- C1, witness for the amended theorem: on the counterexample image the
fallback answer 0xdead00 wins both for the SYMBOLIC dynamic entry (plus its
addend 4) and for a JUMP_SLOT PLT entry against the same defined symbol. -/
theorem c1_resolution_order_witness :
    dynEntry c1Img [] c1F c1Rela = EntryResult.write c1Rela.r_offset (0xdead00 + c1Rela.r_addend) ∧
    pltEntry c1Img [] c1F c1PltRela = EntryResult.write c1PltRela.r_offset 0xdead00 := by
  refine ⟨?_, ?_⟩
  · exact ((c1_resolution_order_amended c1Img [] c1F c1Rela (by decide)).2.1 (Or.inr rfl)).1
      0xdead00 (by decide)
  · exact ((c1_resolution_order_amended c1Img [] c1F c1PltRela (by decide)).1 rfl).1
      0xdead00 (by decide)

/-- C5, counterexample.  finish on a finished non-lazy image with an init
function and a relro range runs init first and applies the relro protection
after it, so the claim (relro strictly before init, init never before the
protection) fails on this trace. -/
theorem c5_relro_order_counterexample :
    finish c5Img = ([FinishEvent.initF, FinishEvent.relroEv], Except.ok ()) ∧
    relroBeforeInit (finish c5Img).1 = false := by
  exact ⟨rfl, by decide⟩

/-- C5, amended.  During finalisation of a finished image the trace of finish
is the init function call, then the init array calls in order, then (when not
lazy) the relro protection: every constructor call precedes the relro
protection, which comes last. -/
theorem c5_relro_order_amended (img : ElfDylibM) (h : img.isFinished = true) :
    (finish img).2 = Except.ok () ∧
    (finish img).1 =
      (finish img).1.filter (fun e => e.isInit) ++ (finish img).1.filter (fun e => e.isRelro) := by
  have harr : ∀ l : List Nat,
      (l.map FinishEvent.initArrEv).filter (fun e => e.isInit) = l.map FinishEvent.initArrEv ∧
      (l.map FinishEvent.initArrEv).filter (fun e => e.isRelro) = [] := by
    intro l
    induction l with
    | nil => exact ⟨rfl, rfl⟩
    | cons a l ih =>
      refine ⟨?_, ?_⟩ <;> simp only [List.map_cons, List.filter_cons]
      · rw [ih.1]; rfl
      · rw [ih.2]; rfl
  have htr : finish img = ((if img.initFn then [FinishEvent.initF] else []) ++
      (List.range img.initArrayLen).map FinishEvent.initArrEv ++
      (if !img.lazy && img.relro then [FinishEvent.relroEv] else []), Except.ok ()) := by
    unfold finish
    rw [h]
    rfl
  have s1 : List.filter (fun e => e.isInit) [FinishEvent.initF] = [FinishEvent.initF] := rfl
  have s2 : List.filter (fun e => e.isInit) [FinishEvent.relroEv] = [] := rfl
  have s3 : List.filter (fun e => e.isRelro) [FinishEvent.initF] = [] := rfl
  have s4 : List.filter (fun e => e.isRelro) [FinishEvent.relroEv] = [FinishEvent.relroEv] := rfl
  have c1 : ∀ l, List.filter (fun e => e.isInit) (FinishEvent.initF :: l) =
      FinishEvent.initF :: List.filter (fun e => e.isInit) l := fun l => rfl
  have c2 : ∀ l, List.filter (fun e => e.isRelro) (FinishEvent.initF :: l) =
      List.filter (fun e => e.isRelro) l := fun l => rfl
  rw [htr]
  refine ⟨rfl, ?_⟩
  dsimp only
  cases hi : img.initFn <;> cases hr : (!img.lazy && img.relro) <;>
    simp [List.filter_append, (harr (List.range img.initArrayLen)).1,
      (harr (List.range img.initArrayLen)).2, s1, s2, s3, s4, c1, c2]

/-- C5, witness for the amended theorem at the concrete finished image. -/
theorem c5_relro_order_witness :
    (finish c5Img).2 = Except.ok () ∧
    (finish c5Img).1 =
      (finish c5Img).1.filter (fun e => e.isInit) ++ (finish c5Img).1.filter (fun e => e.isRelro) := by
  exact c5_relro_order_amended c5Img (by decide)

/-- C9.  The aux rewrite maps every entry before the first AT_NULL through the
per-entry rewrite; that rewrite sets AT_PHDR to the phdr table address, AT_PHNUM
to the phdr count, AT_PHENT to the phdr size, AT_ENTRY to the target entry,
AT_EXECFN to the target path pointer and AT_BASE to 0, and passes every other
tag through unchanged; and the stack shift drops argv[0] and decreases argc by
one. -/
theorem c9_auxv_rewrite (p n s e x : Nat) :
    (∀ l : List MiniLoader.Aux, (∀ a ∈ l, a.tag ≠ MiniLoader.AT_NULL) →
       MiniLoader.rewriteAuxv p n s e x l = l.map (MiniLoader.rewriteAux p n s e x)) ∧
    (∀ a : MiniLoader.Aux,
       (a.tag = MiniLoader.AT_PHDR → MiniLoader.rewriteAux p n s e x a = { a with val := p }) ∧
       (a.tag = MiniLoader.AT_PHNUM → MiniLoader.rewriteAux p n s e x a = { a with val := n }) ∧
       (a.tag = MiniLoader.AT_PHENT → MiniLoader.rewriteAux p n s e x a = { a with val := s }) ∧
       (a.tag = MiniLoader.AT_ENTRY → MiniLoader.rewriteAux p n s e x a = { a with val := e }) ∧
       (a.tag = MiniLoader.AT_EXECFN → MiniLoader.rewriteAux p n s e x a = { a with val := x }) ∧
       (a.tag = MiniLoader.AT_BASE → MiniLoader.rewriteAux p n s e x a = { a with val := 0 }) ∧
       (a.tag ∉ [MiniLoader.AT_PHDR, MiniLoader.AT_PHNUM, MiniLoader.AT_PHENT,
           MiniLoader.AT_ENTRY, MiniLoader.AT_EXECFN, MiniLoader.AT_BASE] →
         MiniLoader.rewriteAux p n s e x a = a)) ∧
    (∀ (argc a0 : Nat) (rest : List Nat),
       MiniLoader.shiftStack (argc :: a0 :: rest) = (argc - 1) :: rest) := by
  refine ⟨?_, ?_, fun argc a0 rest => rfl⟩
  · intro l hl
    induction l with
    | nil => rfl
    | cons a l ih =>
      have ha := hl a (List.mem_cons_self _ _)
      have := ih (fun b hb => hl b (List.mem_cons_of_mem _ hb))
      simp [MiniLoader.rewriteAuxv, ha, this]
  · intro a
    refine ⟨?_, ?_, ?_, ?_, ?_, ?_, ?_⟩
    case refine_7 =>
      intro ht
      simp only [List.mem_cons, List.not_mem_nil, or_false, not_or,
        MiniLoader.AT_PHDR, MiniLoader.AT_PHNUM, MiniLoader.AT_PHENT,
        MiniLoader.AT_ENTRY, MiniLoader.AT_EXECFN, MiniLoader.AT_BASE] at ht
      obtain ⟨h3, h5, h4, h9, h31, h7⟩ := ht
      simp [MiniLoader.rewriteAux, MiniLoader.AT_PHDR, MiniLoader.AT_PHNUM,
        MiniLoader.AT_PHENT, MiniLoader.AT_ENTRY, MiniLoader.AT_EXECFN, MiniLoader.AT_BASE,
        h3, h5, h4, h9, h31, h7]
    all_goals
      intro ht
      simp [MiniLoader.rewriteAux, ht, MiniLoader.AT_PHDR, MiniLoader.AT_PHNUM,
        MiniLoader.AT_PHENT, MiniLoader.AT_ENTRY, MiniLoader.AT_EXECFN, MiniLoader.AT_BASE]

/-- C9, witness: a concrete aux vector and stack. -/
theorem c9_auxv_rewrite_witness :
    MiniLoader.rewriteAuxv 11 2 56 77 88
      [{ tag := 3, val := 1 }, { tag := 25, val := 6 }, { tag := 7, val := 5 }] =
      [{ tag := 3, val := 11 }, { tag := 25, val := 6 }, { tag := 7, val := 0 }] ∧
    MiniLoader.shiftStack [3, 10, 20, 30] = [2, 20, 30] := by
  have h := c9_auxv_rewrite 11 2 56 77 88
  refine ⟨(h.1 _ (by decide)).trans (by decide), h.2.2 3 10 [20, 30]⟩

/-- C10.  Every successful relocate call appends the whole dependency slice to
dep_libs; two calls with the same slice append it twice (duplicates); and when
both arrays are already in stage Finish the call does no relocation work and
still appends the slice. -/
theorem c10_dep_libs_appended (img : ElfDylibM) (libs : List RelocatedDylibM)
    (f : String → Option Nat) :
    (∀ img', relocateImpl img libs f = some img' → img'.depLibs = img.depLibs ++ libs) ∧
    (∀ img1 img2, relocateImpl img libs f = some img1 → relocateImpl img1 libs f = some img2 →
       img2.depLibs = img.depLibs ++ libs ++ libs) ∧
    ((∀ arr, img.relocation.pltrel = some arr → arr.state.stage = RelocateStage.Finish) →
     (∀ arr, img.relocation.dynrel = some arr → arr.state.stage = RelocateStage.Finish) →
     relocateImpl img libs f = some { img with depLibs := img.depLibs ++ libs }) := by
  refine ⟨fun img' h => relocateImpl_depLibs img libs f img' h, ?_, ?_⟩
  · intro img1 img2 h1 h2
    rw [relocateImpl_depLibs img1 libs f img2 h2, relocateImpl_depLibs img libs f img1 h1]
  · intro hp hd
    exact relocateImpl_finished_noop img libs f hp hd

/-- C10, witness: an image with both arrays finished, one dependency appended
on each of two calls. -/
theorem c10_dep_libs_appended_witness :
    relocateImpl c10Img [c10Lib] (fun _ => none) =
      some { c10Img with depLibs := c10Img.depLibs ++ [c10Lib] } := by
  exact (c10_dep_libs_appended c10Img [c10Lib] (fun _ => none)).2.2
    (fun arr h => by cases h; rfl) (fun arr h => by cases h; rfl)

/-- C3.  After a relocate pass on an image whose dynamic array is fresh (stage
Init) and whose entry offsets are distinct, every RELATIVE entry with offset o
and addend A has the word base + A stored at address base + o.  The statement
quantifies over every dependency list and fallback resolver and the stored
word never depends on them: no symbol lookup is involved. -/
theorem c3_relative_round_trip (img : ElfDylibM) (libs : List RelocatedDylibM)
    (f : String → Option Nat) (arr : ElfRelaArray) (img' : ElfDylibM)
    (harr : img.relocation.dynrel = some arr)
    (hstage : arr.state.stage = RelocateStage.Init)
    (hnodup : (arr.array.map ElfRela.r_offset).Nodup)
    (hrel : relocateImpl img libs f = some img')
    (e : ElfRela) (he : e ∈ arr.array) (hty : e.r_type = REL_RELATIVE) :
    img'.mem (img.base + e.r_offset) = img.base + e.r_addend := by
  obtain ⟨plt', m1, dyn', m2, hp, hd, himg⟩ := relocateImpl_parts img libs f img' hrel
  unfold relocateDyn at hd
  rw [harr] at hd
  dsimp only at hd
  cases hra : arr.relocate img.base (dynEntry img libs f) m1 with
  | none => rw [hra] at hd; exact absurd hd (by simp)
  | some am =>
    obtain ⟨arr2, m2'⟩ := am
    rw [hra] at hd
    simp only [Option.some.injEq, Prod.mk.injEq] at hd
    obtain ⟨hnp, harr2, hm2'⟩ :=
      relocate_init_some arr img.base (dynEntry img libs f) m1 arr2 m2' hstage hra
    have hmm : img'.mem = m2 := by rw [himg]
    rw [hmm, ← hd.2, hm2', memAfter_eq_memAfterE, List.enum_map_snd]
    exact memAfterE_target img.base (dynEntry img libs f) arr.array m1 e (img.base + e.r_addend)
      he (by rw [dynEntry_relative img libs f e hty])
      (fun x hx o w hxw => dynEntry_write_off img libs f x o w hxw)
      hnodup

/-- C3, witness: relocating the concrete image with one fresh RELATIVE entry at
offset 16 with addend 0x200, at base 0x1000, stores 0x1200 at 0x1010. -/
theorem c3_relative_round_trip_witness :
    relocateImpl c3Img [] (fun _ => none) = some c3Res ∧
    c3Res.mem (c3Img.base + c3E.r_offset) = c3Img.base + c3E.r_addend := by
  have hrel : relocateImpl c3Img [] (fun _ => none) = some c3Res := rfl
  refine ⟨hrel, ?_⟩
  exact c3_relative_round_trip c3Img [] (fun _ => none)
    { array := [c3E], state := { relocated := BitMap.new 1, stage := RelocateStage.Init } }
    c3Res rfl rfl (by decide) hrel c3E (List.mem_cons_self _ _) rfl

/-- C4.  When is_finished is false, finish returns the relocate error built by
not_relocated and makes no call at all: the event trace is empty, so neither the
INIT function nor any INIT_ARRAY function is invoked; and the message contains
(as a substring) the name of every still-unresolved entry of both arrays. -/
theorem c4_finish_error_lists_unresolved (img : ElfDylibM)
    (h : img.isFinished = false) :
    finish img = ([], Except.error (notRelocated img)) ∧
    ∀ n ∈ unresolvedNames img, ∃ s t, s ++ n.data ++ t = (notRelocated img).data := by
  refine ⟨?_, ?_⟩
  · unfold finish
    rw [h]
    rfl
  · intro n hn
    exact name_in_msg (unresolvedNames img) _ n hn

/-- C4, witness: the unfinished image with one unresolved entry against
missing_sym, an init function and an init array; finish returns the error, runs
nothing, and the message contains missing_sym. -/
theorem c4_finish_error_witness :
    finish c4Img = ([], Except.error (notRelocated c4Img)) ∧
    (∃ s t, s ++ "missing_sym".data ++ t = (notRelocated c4Img).data) := by
  have h := c4_finish_error_lists_unresolved c4Img (by decide)
  exact ⟨h.1, h.2 "missing_sym" (by decide)⟩

/-- C6.  With lazy binding on, relocate leaves the PLT array untouched (whatever
it references), writes only words targeted by dynamic entries, and when every
dynamic entry resolves (or the dynamic array is absent) the image is finished
and finish succeeds, no matter which symbols the PLT entries reference. -/
theorem c6_lazy_plt_skipped (img : ElfDylibM) (libs : List RelocatedDylibM)
    (f : String → Option Nat) (img' : ElfDylibM)
    (hlazy : img.lazy = true)
    (hrel : relocateImpl img libs f = some img') :
    img'.relocation.pltrel = img.relocation.pltrel ∧
    (∀ a : Nat, (∀ arr, img.relocation.dynrel = some arr →
        ∀ e ∈ arr.array, a ≠ img.base + e.r_offset) →
      img'.mem a = img.mem a) ∧
    ((∀ arr, img.relocation.dynrel = some arr → arr.state.stage = RelocateStage.Init ∧
        ∀ e ∈ arr.array, dynEntry img libs f e ≠ EntryResult.fail) →
      img'.isFinished = true ∧ (finish img').2 = Except.ok ()) := by
  obtain ⟨plt', m1, dyn', m2, hp, hd, himg⟩ := relocateImpl_parts img libs f img' hrel
  rw [relocatePlt_lazy img libs f hlazy] at hp
  simp only [Option.some.injEq, Prod.mk.injEq] at hp
  have hplt : plt' = img.relocation.pltrel := hp.1.symm
  have hm1 : m1 = img.mem := hp.2.symm
  have hmem' : img'.mem = m2 := by rw [himg]
  have hframe : ∀ a : Nat, (∀ arr, img.relocation.dynrel = some arr →
      ∀ e ∈ arr.array, a ≠ img.base + e.r_offset) → img'.mem a = img.mem a := by
    intro a hno
    rw [hmem']
    cases hdd : img.relocation.dynrel with
    | none =>
      rw [relocateDyn_none_arr img libs f m1 hdd] at hd
      simp only [Option.some.injEq, Prod.mk.injEq] at hd
      rw [← hd.2, hm1]
    | some arr =>
      unfold relocateDyn at hd
      rw [hdd] at hd
      dsimp only at hd
      cases hra : arr.relocate img.base (dynEntry img libs f) m1 with
      | none => rw [hra] at hd; exact absurd hd (by simp)
      | some am =>
        obtain ⟨arr2, m2'⟩ := am
        rw [hra] at hd
        simp only [Option.some.injEq, Prod.mk.injEq] at hd
        rw [← hd.2]
        cases hst : arr.state.stage with
        | Init =>
          obtain ⟨hnp, _, hm2'⟩ :=
            relocate_init_some arr img.base (dynEntry img libs f) m1 arr2 m2' hst hra
          rw [hm2', memAfter_eq_memAfterE, List.enum_map_snd, ← hm1]
          exact memAfterE_preserve img.base (dynEntry img libs f) arr.array m1 a
            (fun e hee o v hw hc => hno arr hdd e hee
              (by rw [← hc, dynEntry_write_off img libs f e o v hw]))
        | Relocating =>
          obtain ⟨hnp, _, hm2'⟩ :=
            relocate_reloc_some arr img.base (dynEntry img libs f) m1 arr2 m2' hst hra
          rw [hm2', memAfterR_eq_memAfterE, ← hm1]
          apply memAfterE_preserve
          intro x hx o v hw hc
          obtain ⟨i, hi, hxe⟩ := List.mem_map.mp hx
          by_cases hlen : i < arr.array.length
          · have hxa : x ∈ arr.array := hxe ▸ getD_mem_of_lt arr.array i hlen
            exact hno arr hdd x hxa (by rw [← hc, dynEntry_write_off img libs f x o v hw])
          · have hxd : arr.array.getD i default = default := by
              rw [List.getD_eq_getElem?_getD,
                List.getElem?_eq_none (Nat.le_of_not_lt hlen)]
              rfl
            have : x = default := by rw [← hxe, hxd]
            rw [this, dynEntry_default_panic] at hw
            exact absurd hw (by simp)
        | Finish =>
          rw [relocate_finish_stage arr img.base (dynEntry img libs f) m1 hst] at hra
          simp only [Option.some.injEq, Prod.mk.injEq] at hra
          rw [← hra.2, hm1]
  refine ⟨by rw [himg]; exact hplt, hframe, ?_⟩
  intro hsucc
  have hlazy' : img'.lazy = true := by rw [himg]; exact hlazy
  have hdynrel : img'.relocation.dynrel = dyn' := by rw [himg]
  have hfin : img'.isFinished = true := by
    unfold ElfDylibM.isFinished
    rw [hlazy', hdynrel]
    cases hdd : img.relocation.dynrel with
    | none =>
      rw [relocateDyn_none_arr img libs f m1 hdd] at hd
      simp only [Option.some.injEq, Prod.mk.injEq] at hd
      rw [← hd.1]
      rfl
    | some arr =>
      unfold relocateDyn at hd
      rw [hdd] at hd
      dsimp only at hd
      cases hra : arr.relocate img.base (dynEntry img libs f) m1 with
      | none => rw [hra] at hd; exact absurd hd (by simp)
      | some am =>
        obtain ⟨arr2, m2'⟩ := am
        rw [hra] at hd
        simp only [Option.some.injEq, Prod.mk.injEq] at hd
        obtain ⟨hst, hnf⟩ := hsucc arr hdd
        obtain ⟨hnp, harr2, _⟩ :=
          relocate_init_some arr img.base (dynEntry img libs f) m1 arr2 m2' hst hra
        have haf : anyFail (dynEntry img libs f) arr.array.enum = false := by
          unfold anyFail
          rw [List.any_eq_false]
          intro ie hie
          simp only [decide_eq_true_eq]
          exact hnf ie.2 (List.getElem?_mem (List.mk_mem_enum_iff_getElem?.mp hie))
        rw [← hd.1, harr2]
        simp [ElfRelaArray.isFinished, haf]
  refine ⟨hfin, ?_⟩
  unfold finish
  rw [hfin]
  rfl

/-- C6, witness: the lazy image whose only PLT entry references an undefined
symbol; relocate leaves it untouched and finish succeeds. -/
theorem c6_lazy_plt_skipped_witness :
    relocate c6Img [] = some c6Img ∧
    c6Img.relocation.pltrel = c6Img.relocation.pltrel ∧
    c6Img.mem 0x2020 = 0 ∧
    c6Img.isFinished = true ∧ (finish c6Img).2 = Except.ok () := by
  have hrel : relocate c6Img [] = some c6Img := rfl
  have h := c6_lazy_plt_skipped c6Img [] (fun _ => none) c6Img rfl hrel
  refine ⟨hrel, h.1, ?_, h.2.2 (fun arr harr => by cases harr)⟩
  have := h.2.1 0x2020 (fun arr harr => by cases harr)
  exact this.trans rfl

/-- C7.  Relocation is idempotent under reapplication: starting from a freshly
loaded image (both arrays in stage Init with all-set bitmaps), a second
relocate call with the same dependency slice (and no resolver) succeeds,
changes nothing but the appended dep_libs, and in particular leaves every word
of the mapped memory exactly as the first call left it. -/
theorem c7_relocate_idempotent (img : ElfDylibM) (libs : List RelocatedDylibM) (img1 : ElfDylibM)
    (hfp : ∀ arr, img.relocation.pltrel = some arr →
        arr.state = { relocated := BitMap.new arr.array.length, stage := RelocateStage.Init })
    (hfd : ∀ arr, img.relocation.dynrel = some arr →
        arr.state = { relocated := BitMap.new arr.array.length, stage := RelocateStage.Init })
    (h1 : relocate img libs = some img1) :
    relocate img1 libs = some { img1 with depLibs := img1.depLibs ++ libs } ∧
    ∀ img2, relocate img1 libs = some img2 → ∀ a, img2.mem a = img1.mem a := by
  unfold relocate at h1
  have hmain : relocate img1 libs = some { img1 with depLibs := img1.depLibs ++ libs } := by
    obtain ⟨plt', m1, dyn', m2, hp, hd, himg⟩ :=
      relocateImpl_parts img libs (fun _ => none) img1 h1
    subst himg
    have hplt2 : relocatePlt { img with
        relocation := { pltrel := plt', dynrel := dyn' }
        mem := m2
        depLibs := img.depLibs ++ libs } libs (fun _ => none) = some (plt', m2) := by
      cases hl : img.lazy with
      | true =>
        exact relocatePlt_lazy _ libs (fun _ => none) rfl
      | false =>
        rcases relocatePlt_cases img libs (fun _ => none) plt' m1 hl hp with
          ⟨hpp, hpe, hme⟩ | ⟨arr, arrP, hpp, hpe, hra⟩
        · subst hpe
          unfold relocatePlt
          dsimp only
          rw [if_neg Bool.false_ne_true]
        · have hagain := relocate_again img.base (pltEntry img libs (fun _ => none))
            arr arrP img.mem m1 (hfp arr hpp) hra
          subst hpe
          unfold relocatePlt
          dsimp only
          rw [if_neg Bool.false_ne_true]
          rw [pltEntry_ignores img, hagain m2]
          all_goals rfl
    have hdyn2 : relocateDyn { img with
        relocation := { pltrel := plt', dynrel := dyn' }
        mem := m2
        depLibs := img.depLibs ++ libs } libs (fun _ => none) m2 = some (dyn', m2) := by
      rcases relocateDyn_cases img libs (fun _ => none) m1 dyn' m2 hd with
        ⟨hdd, hde, hme⟩ | ⟨arr, arrD, hdd, hde, hra⟩
      · subst hde
        unfold relocateDyn
        dsimp only
      · have hagain := relocate_again img.base (dynEntry img libs (fun _ => none))
          arr arrD m1 m2 (hfd arr hdd) hra
        subst hde
        unfold relocateDyn
        dsimp only
        rw [dynEntry_ignores img, hagain m2]
        all_goals rfl
    unfold relocate relocateImpl
    rw [hplt2]
    dsimp only
    rw [hdyn2]
  refine ⟨hmain, ?_⟩
  intro img2 h2 a
  have heq := hmain.symm.trans h2
  simp only [Option.some.injEq] at heq
  rw [← heq]

/-- C7, witness: the image whose fresh PLT entry fails (missing symbol); after
the first relocate the second one returns the same image with duplicated (here
empty) dependencies, memory untouched. -/
theorem c7_relocate_idempotent_witness :
    relocate c7Res [] = some { c7Res with depLibs := c7Res.depLibs ++ [] } := by
  have h := c7_relocate_idempotent c7Img [] c7Res
    (fun arr harr => by cases harr; rfl)
    (fun arr harr => by cases harr)
    rfl
  exact h.1

end ElfLoader
